import Mathlib

/-!
# Verification of the XMLQuiz quiz-to-XML generator (`app.py`)

The development shallowly embeds the program.  Python `str.replace` (as used
by the program: always with a nonempty pattern) is modelled by `pyReplace`,
a left-to-right, non-overlapping, single-pass replacement on `List Char`.
The `markRight` helper and the body of the `/generate_xmls` view are
translated function by function; a missing dictionary key (Python
`KeyError`) is modelled by the `Except.error` branch carrying the key name,
and the HTTP outcome by an explicit `Response` type.
-/

namespace XMLQuiz

/-- One pass of Python `str.replace` for a nonempty pattern, fuel-indexed so
that the definition is structural.  At every call site `fuel ≥ s.length`,
which is enough fuel: each step consumes at least one character.  (For an
empty pattern Python inserts the replacement between characters; the
program only ever calls `replace` with nonempty literal placeholders, and
for an empty pattern this model returns the string unchanged.) -/
def replChars (pat rep : List Char) : Nat → List Char → List Char
  | 0, s => s
  | fuel + 1, s =>
    match s with
    | [] => []
    | c :: rest =>
      if pat ≠ [] ∧ pat <+: (c :: rest) then
        rep ++ replChars pat rep fuel (List.drop pat.length (c :: rest))
      else
        c :: replChars pat rep fuel rest

theorem replChars_zero (pat rep : List Char) (s : List Char) :
    replChars pat rep 0 s = s := rfl

theorem replChars_succ_nil (pat rep : List Char) (fuel : Nat) :
    replChars pat rep (fuel + 1) [] = [] := rfl

theorem replChars_succ_cons (pat rep : List Char) (fuel : Nat) (c : Char)
    (rest : List Char) :
    replChars pat rep (fuel + 1) (c :: rest) =
      if pat ≠ [] ∧ pat <+: (c :: rest) then
        rep ++ replChars pat rep fuel (List.drop pat.length (c :: rest))
      else
        c :: replChars pat rep fuel rest := rfl

theorem replChars_nil (pat rep : List Char) (fuel : Nat) :
    replChars pat rep fuel [] = [] := by
  cases fuel <;> rfl

/-- The result does not depend on the exact amount of fuel, as long as there
is enough of it. -/
theorem replChars_fuel (pat rep : List Char) :
    ∀ fuel₁ fuel₂ s, s.length ≤ fuel₁ → s.length ≤ fuel₂ →
      replChars pat rep fuel₁ s = replChars pat rep fuel₂ s := by
  intro fuel₁
  induction fuel₁ with
  | zero =>
    intro fuel₂ s hs₁ _
    have : s = [] := List.eq_nil_of_length_eq_zero (Nat.le_zero.mp hs₁)
    subst this
    simp [replChars_nil]
  | succ f ih =>
    intro fuel₂ s hs₁ hs₂
    cases s with
    | nil => simp [replChars_nil]
    | cons c rest =>
      cases fuel₂ with
      | zero => exact absurd hs₂ (by simp)
      | succ g =>
        rw [replChars_succ_cons, replChars_succ_cons]
        by_cases h : pat ≠ [] ∧ pat <+: (c :: rest)
        · rw [if_pos h, if_pos h]
          have hpat : 1 ≤ pat.length := by
            cases hp : pat with
            | nil => exact absurd hp h.1
            | cons _ _ => simp
          have hlen : (List.drop pat.length (c :: rest)).length ≤ f := by
            rw [List.length_drop]
            simp only [List.length_cons] at hs₁ ⊢
            omega
          have hlen₂ : (List.drop pat.length (c :: rest)).length ≤ g := by
            rw [List.length_drop]
            simp only [List.length_cons] at hs₂ ⊢
            omega
          rw [ih _ _ hlen hlen₂]
        · rw [if_neg h, if_neg h]
          have h₁ : rest.length ≤ f := by
            simp only [List.length_cons] at hs₁; omega
          have h₂ : rest.length ≤ g := by
            simp only [List.length_cons] at hs₂; omega
          rw [ih _ _ h₁ h₂]

/-- Python `s.replace(pat, rep)` for a nonempty `pat`, on character lists. -/
def pyReplace (s pat rep : List Char) : List Char :=
  replChars pat rep s.length s

theorem pyReplace_eq_replChars (pat rep : List Char) {fuel s} (h : s.length ≤ fuel) :
    pyReplace s pat rep = replChars pat rep fuel s :=
  replChars_fuel pat rep _ _ s (Nat.le_refl _) h

theorem pyReplace_nil (pat rep : List Char) : pyReplace [] pat rep = [] := rfl

theorem pyReplace_cons_pos {pat : List Char} (rep : List Char) {c : Char}
    {rest : List Char} (hne : pat ≠ []) (hp : pat <+: (c :: rest)) :
    pyReplace (c :: rest) pat rep =
      rep ++ pyReplace (List.drop pat.length (c :: rest)) pat rep := by
  have hpat : 1 ≤ pat.length := by
    cases hq : pat with
    | nil => exact absurd hq hne
    | cons _ _ => simp
  have hdl : (List.drop pat.length (c :: rest)).length ≤ rest.length := by
    rw [List.length_drop]; simp only [List.length_cons]; omega
  unfold pyReplace
  rw [show (c :: rest).length = rest.length + 1 from rfl, replChars_succ_cons,
    if_pos ⟨hne, hp⟩]
  congr 1
  exact replChars_fuel pat rep rest.length
    (List.drop pat.length (c :: rest)).length _ hdl (Nat.le_refl _)

theorem pyReplace_cons_neg {pat : List Char} (rep : List Char) {c : Char}
    {rest : List Char} (h : ¬(pat ≠ [] ∧ pat <+: (c :: rest))) :
    pyReplace (c :: rest) pat rep = c :: pyReplace rest pat rep := by
  unfold pyReplace
  rw [show (c :: rest).length = rest.length + 1 from rfl, replChars_succ_cons,
    if_neg h]

/-! ### Decompositions of prefixes and infixes over `++` and `::` -/

theorem prefAppendSplit {α : Type} {t a b : List α} (h : t <+: a ++ b) :
    t <+: a ∨ ∃ y, t = a ++ y ∧ y <+: b := by
  induction a generalizing t with
  | nil => exact Or.inr ⟨t, rfl, by simpa using h⟩
  | cons c a' ih =>
    cases t with
    | nil => exact Or.inl List.nil_prefix
    | cons d t' =>
      rw [List.cons_append] at h
      rcases List.cons_prefix_cons.mp h with ⟨rfl, h'⟩
      rcases ih h' with h₁ | ⟨y, rfl, hy⟩
      · exact Or.inl (List.cons_prefix_cons.mpr ⟨rfl, h₁⟩)
      · exact Or.inr ⟨y, rfl, hy⟩

theorem prefAppendCases {α : Type} {w a b : List α} (h : w <+: a ++ b) :
    w <+: a ∨ a <+: w := by
  rcases prefAppendSplit h with h₁ | ⟨y, rfl, _⟩
  · exact Or.inl h₁
  · exact Or.inr (List.prefix_append a y)

theorem infAppendSplit {α : Type} {t a b : List α} (h : t <:+: a ++ b) :
    t <:+: a ∨ t <:+: b ∨
      ∃ x y, t = x ++ y ∧ x ≠ [] ∧ y ≠ [] ∧ x <:+ a ∧ y <+: b := by
  induction a generalizing t with
  | nil => exact Or.inr (Or.inl (by simpa using h))
  | cons c a' ih =>
    rw [List.cons_append] at h
    rcases List.infix_cons_iff.mp h with hp | hi
    · cases t with
      | nil => exact Or.inl List.nil_infix
      | cons d t' =>
        rcases List.cons_prefix_cons.mp hp with ⟨rfl, h'⟩
        rcases prefAppendSplit h' with h₁ | ⟨y, rfl, hy⟩
        · exact Or.inl (List.cons_prefix_cons.mpr ⟨rfl, h₁⟩).isInfix
        · by_cases hy0 : y = []
          · subst hy0
            exact Or.inl (by simp)
          · exact Or.inr (Or.inr ⟨d :: a', y, rfl, by simp, hy0,
              List.suffix_rfl, hy⟩)
    · rcases ih hi with h₁ | h₂ | ⟨x, y, rfl, hx0, hy0, hxa, hyb⟩
      · exact Or.inl (List.infix_cons h₁)
      · exact Or.inr (Or.inl h₂)
      · exact Or.inr (Or.inr ⟨x, y, rfl, hx0, hy0,
          hxa.trans (List.suffix_cons c a'), hyb⟩)

theorem dropLenLe {pat : List Char} {c : Char} {rest : List Char} {f : Nat}
    (hpat : pat ≠ []) (h : (c :: rest).length ≤ f + 1) :
    (List.drop pat.length (c :: rest)).length ≤ f := by
  have h1 : 1 ≤ pat.length := by
    cases hq : pat with
    | nil => exact absurd hq hpat
    | cons _ _ => simp
  rw [List.length_drop]
  simp only [List.length_cons] at h ⊢
  omega

/-! ### Behaviour of a single replacement pass

`pref_of_repl`: a nonempty prefix of the output that is a suffix of a
string `t` that cannot overlap `rep` must already have been a prefix of the
input.  `pref_to_repl`: dually, a prefix of the input that is a suffix of a
`t` that cannot overlap `pat` remains a prefix of the output. -/

theorem pref_of_repl (pat rep t : List Char)
    (hsufpre : ∀ u, u ≠ [] → u <:+ t → ¬ u <+: rep) (hrept : ¬ rep <:+: t) :
    ∀ fuel s w, s.length ≤ fuel → w ≠ [] → w <:+ t →
      w <+: replChars pat rep fuel s → w <+: s := by
  intro fuel
  induction fuel with
  | zero =>
    intro s w hs _ _ hpre
    have hnil : s = [] := List.eq_nil_of_length_eq_zero (Nat.le_zero.mp hs)
    subst hnil
    rwa [replChars_zero] at hpre
  | succ f ih =>
    intro s w hs hw hwt hpre
    cases s with
    | nil => rw [replChars_succ_nil] at hpre; exact hpre
    | cons c rest =>
      rw [replChars_succ_cons] at hpre
      by_cases hc : pat ≠ [] ∧ pat <+: (c :: rest)
      · rw [if_pos hc] at hpre
        rcases prefAppendCases hpre with h₁ | h₂
        · exact absurd h₁ (hsufpre w hw hwt)
        · exact absurd (h₂.isInfix.trans hwt.isInfix) hrept
      · rw [if_neg hc] at hpre
        cases w with
        | nil => exact absurd rfl hw
        | cons d w' =>
          rcases List.cons_prefix_cons.mp hpre with ⟨rfl, h'⟩
          by_cases hw' : w' = []
          · subst hw'
            exact List.cons_prefix_cons.mpr ⟨rfl, List.nil_prefix⟩
          · have hw't : w' <:+ t := (List.suffix_cons d w').trans hwt
            have hrest : rest.length ≤ f := by
              simp only [List.length_cons] at hs; omega
            exact List.cons_prefix_cons.mpr ⟨rfl, ih rest w' hrest hw' hw't h'⟩

theorem pref_to_repl (pat t : List Char)
    (hpt : ¬ pat <:+: t) (hsp : ∀ u, u ≠ [] → u <:+ t → ¬ u <+: pat) :
    ∀ rep fuel s w, s.length ≤ fuel → w ≠ [] → w <:+ t → w <+: s →
      w <+: replChars pat rep fuel s := by
  intro rep fuel
  induction fuel with
  | zero =>
    intro s w hs hw _ hpre
    have hnil : s = [] := List.eq_nil_of_length_eq_zero (Nat.le_zero.mp hs)
    subst hnil
    exact absurd (List.prefix_nil.mp hpre) hw
  | succ f ih =>
    intro s w hs hw hwt hpre
    cases s with
    | nil => exact absurd (List.prefix_nil.mp hpre) hw
    | cons c rest =>
      rw [replChars_succ_cons]
      by_cases hc : pat ≠ [] ∧ pat <+: (c :: rest)
      · exfalso
        rcases List.prefix_or_prefix_of_prefix hpre hc.2 with hwp | hpw
        · exact hsp w hw hwt hwp
        · exact hpt (hpw.isInfix.trans hwt.isInfix)
      · rw [if_neg hc]
        cases w with
        | nil => exact absurd rfl hw
        | cons d w' =>
          rcases List.cons_prefix_cons.mp hpre with ⟨rfl, h'⟩
          by_cases hw' : w' = []
          · subst hw'
            exact List.cons_prefix_cons.mpr ⟨rfl, List.nil_prefix⟩
          · have hw't : w' <:+ t := (List.suffix_cons d w').trans hwt
            have hrest : rest.length ≤ f := by
              simp only [List.length_cons] at hs; omega
            exact List.cons_prefix_cons.mpr ⟨rfl, ih rest w' hrest hw' hw't h'⟩

/-- After one pass, no occurrence of the pattern remains, provided the
replacement is nonempty and cannot recombine with surrounding text into a
new occurrence of the pattern. -/
theorem noRemain (pat rep : List Char) (hpat : pat ≠ [])
    (h3 : ¬ pat <:+: rep) (h4 : ¬ rep <:+: pat)
    (h5 : ∀ u, u ≠ [] → u <:+ pat → ¬ u <+: rep)
    (h6 : ∀ u, u ≠ [] → u <:+ rep → ¬ u <+: pat) :
    ∀ fuel s, s.length ≤ fuel → ¬ pat <:+: replChars pat rep fuel s := by
  intro fuel
  induction fuel with
  | zero =>
    intro s hs
    have hnil : s = [] := List.eq_nil_of_length_eq_zero (Nat.le_zero.mp hs)
    subst hnil
    rw [replChars_zero]
    intro h
    exact hpat (List.infix_nil.mp h)
  | succ f ih =>
    intro s hs
    cases s with
    | nil =>
      rw [replChars_succ_nil]
      intro h
      exact hpat (List.infix_nil.mp h)
    | cons c rest =>
      rw [replChars_succ_cons]
      by_cases hc : pat ≠ [] ∧ pat <+: (c :: rest)
      · rw [if_pos hc]
        intro hocc
        rcases infAppendSplit hocc with hA | hB | ⟨x, y, hxy, hx0, _, hxr, _⟩
        · exact h3 hA
        · exact ih _ (dropLenLe hpat hs) hB
        · exact h6 x hx0 hxr (hxy ▸ List.prefix_append x y)
      · rw [if_neg hc]
        intro hocc
        have hrest : rest.length ≤ f := by
          simp only [List.length_cons] at hs; omega
        rcases List.infix_cons_iff.mp hocc with hp | hi
        · cases hq : pat with
          | nil => exact hpat hq
          | cons d pat' =>
            subst hq
            rcases List.cons_prefix_cons.mp hp with ⟨rfl, hp'⟩
            by_cases hp0 : pat' = []
            · subst hp0
              exact hc ⟨hpat, List.cons_prefix_cons.mpr ⟨rfl, List.nil_prefix⟩⟩
            · have hsuf : pat' <:+ d :: pat' := List.suffix_cons d pat'
              have := pref_of_repl (d :: pat') rep (d :: pat') h5 h4
                f rest pat' hrest hp0 hsuf hp'
              exact hc ⟨hpat, List.cons_prefix_cons.mpr ⟨rfl, this⟩⟩
        · exact ih rest hrest hi

/-- One pass cannot create an occurrence of a string `t` that was not
already present, provided the replacement is nonempty and cannot overlap
`t`. -/
theorem noCreate (pat rep t : List Char) (hpat : pat ≠ [])
    (h1 : ¬ t <:+: rep) (h2 : ¬ rep <:+: t)
    (h3 : ∀ u, u ≠ [] → u <:+ rep → ¬ u <+: t)
    (h4 : ∀ u, u ≠ [] → u <:+ t → ¬ u <+: rep) :
    ∀ fuel s, s.length ≤ fuel → ¬ t <:+: s → ¬ t <:+: replChars pat rep fuel s := by
  intro fuel
  induction fuel with
  | zero =>
    intro s hs hns
    have hnil : s = [] := List.eq_nil_of_length_eq_zero (Nat.le_zero.mp hs)
    subst hnil
    rwa [replChars_zero]
  | succ f ih =>
    intro s hs hns
    cases s with
    | nil => rwa [replChars_succ_nil]
    | cons c rest =>
      rw [replChars_succ_cons]
      by_cases hc : pat ≠ [] ∧ pat <+: (c :: rest)
      · rw [if_pos hc]
        intro hocc
        rcases infAppendSplit hocc with hA | hB | ⟨x, y, hxy, hx0, _, hxr, _⟩
        · exact h1 hA
        · have hnd : ¬ t <:+: List.drop pat.length (c :: rest) := fun hh =>
            hns (hh.trans (List.drop_suffix _ _).isInfix)
          exact ih _ (dropLenLe hpat hs) hnd hB
        · exact h3 x hx0 hxr (hxy ▸ List.prefix_append x y)
      · rw [if_neg hc]
        intro hocc
        have hrest : rest.length ≤ f := by
          simp only [List.length_cons] at hs; omega
        rcases List.infix_cons_iff.mp hocc with hp | hi
        · cases ht : t with
          | nil => exact hns (ht ▸ List.nil_infix)
          | cons d t' =>
            subst ht
            rcases List.cons_prefix_cons.mp hp with ⟨rfl, hp'⟩
            by_cases ht' : t' = []
            · subst ht'
              exact hns (List.cons_prefix_cons.mpr
                ⟨rfl, List.nil_prefix⟩).isInfix
            · have hsuf : t' <:+ d :: t' := List.suffix_cons d t'
              have hpre : t' <+: rest := pref_of_repl pat rep (d :: t')
                h4 h2 f rest t' hrest ht' hsuf hp'
              exact hns (List.cons_prefix_cons.mpr ⟨rfl, hpre⟩).isInfix
        · exact ih rest hrest (fun hh => hns (List.infix_cons hh)) hi

/-- One pass preserves every occurrence of a string `t` that cannot overlap
the pattern being replaced.  The replacement text is arbitrary. -/
theorem preserve (pat rep t : List Char) (hpat : pat ≠ [])
    (g2 : ¬ t <:+: pat) (g3 : ¬ pat <:+: t)
    (g4 : ∀ u, u ≠ [] → u <:+ pat → ¬ u <+: t)
    (g5 : ∀ u, u ≠ [] → u <:+ t → ¬ u <+: pat) :
    ∀ fuel s, s.length ≤ fuel → t <:+: s → t <:+: replChars pat rep fuel s := by
  intro fuel
  induction fuel with
  | zero =>
    intro s hs hts
    have hnil : s = [] := List.eq_nil_of_length_eq_zero (Nat.le_zero.mp hs)
    subst hnil
    rwa [replChars_zero]
  | succ f ih =>
    intro s hs hts
    by_cases ht0 : t = []
    · subst ht0; exact List.nil_infix
    cases s with
    | nil => rwa [replChars_succ_nil]
    | cons c rest =>
      by_cases hc : pat ≠ [] ∧ pat <+: (c :: rest)
      · rw [replChars_succ_cons, if_pos hc]
        obtain ⟨s₂, hs₂⟩ := hc.2
        have hdrop : List.drop pat.length (c :: rest) = s₂ := by
          rw [← hs₂, List.drop_left]
        have hts₂ : t <:+: pat ++ s₂ := hs₂ ▸ hts
        rcases infAppendSplit hts₂ with hA | hB | ⟨x, y, hxy, hx0, _, hxr, _⟩
        · exact absurd hA g2
        · have hlen : (List.drop pat.length (c :: rest)).length ≤ f :=
            dropLenLe hpat hs
          have := ih _ hlen (hdrop ▸ hB)
          exact this.trans (List.suffix_append rep _).isInfix
        · exact absurd (hxy ▸ List.prefix_append x y) (g4 x hx0 hxr)
      · have hrest : rest.length ≤ f := by
          simp only [List.length_cons] at hs; omega
        rcases List.infix_cons_iff.mp hts with hp | hi
        · exact (pref_to_repl pat t g3 g5 rep (f + 1) (c :: rest) t hs
            ht0 List.suffix_rfl hp).isInfix
        · rw [replChars_succ_cons, if_neg hc]
          exact List.infix_cons (ih rest hrest hi)

/-! ### Placeholder tokens

Every placeholder of the program has the shape `{{body}}` with a body free
of brace characters.  Two such tokens with different bodies can never
overlap in a string, which makes the replacement lemmas above applicable. -/

/-- `{{body}}` as a character list. -/
def tokL (body : List Char) : List Char := '{' :: '{' :: (body ++ ['}', '}'])

/-- A brace-free character list. -/
def BFree (l : List Char) : Prop := '{' ∉ l ∧ '}' ∉ l

theorem tok_ne (b : List Char) : tokL b ≠ [] := by simp [tokL]

theorem tokHeadMem (b : List Char) : '{' ∈ tokL b := List.mem_cons_self _ _

theorem lastMemOfSuf {u l : List Char} {c : Char} (h : u <:+ l ++ [c])
    (hu : u ≠ []) : c ∈ u := by
  have h' : u.reverse <+: (l ++ [c]).reverse := List.reverse_prefix.mpr h
  simp only [List.reverse_append, List.reverse_singleton,
    List.singleton_append] at h'
  cases hr : u.reverse with
  | nil => exact absurd (List.reverse_eq_nil_iff.mp hr) hu
  | cons d w =>
    rw [hr] at h'
    rcases List.cons_prefix_cons.mp h' with ⟨rfl, -⟩
    have hd : d ∈ u.reverse := by rw [hr]; exact List.mem_cons_self d w
    rwa [List.mem_reverse] at hd

theorem headMemOfPref {u l : List Char} {c : Char} (h : u <+: c :: l)
    (hu : u ≠ []) : c ∈ u := by
  cases u with
  | nil => exact absurd rfl hu
  | cons d w =>
    rcases List.cons_prefix_cons.mp h with ⟨rfl, -⟩
    exact List.mem_cons_self d w

theorem tokSufMem {u b : List Char} (h : u <:+ tokL b) (hu : u ≠ []) :
    '}' ∈ u := by
  have hb : tokL b = ('{' :: '{' :: (b ++ ['}'])) ++ ['}'] := by
    simp [tokL]
  exact lastMemOfSuf (hb ▸ h) hu

theorem tokPrefMem {u b : List Char} (h : u <+: tokL b) (hu : u ≠ []) :
    '{' ∈ u :=
  headMemOfPref h hu

/-- A nonempty suffix of a token that starts with `{` is the token itself or
the token minus its first character. -/
theorem sufTokStruct {u b : List Char} (hb : BFree b) (h : u <:+ tokL b)
    (hmem : '{' ∈ u) : u = tokL b ∨ u = '{' :: (b ++ ['}', '}']) := by
  obtain ⟨v, hv⟩ := h
  cases v with
  | nil => exact Or.inl (by simpa using hv)
  | cons c v' =>
    rw [List.cons_append] at hv
    injection hv with hc htail
    cases v' with
    | nil => exact Or.inr (by simpa using htail)
    | cons d v'' =>
      exfalso
      rw [List.cons_append] at htail
      injection htail with hd htail'
      have : '{' ∈ v'' ++ u := List.mem_append_right _ hmem
      rw [htail'] at this
      rcases List.mem_append.mp this with h₁ | h₂
      · exact hb.1 h₁
      · simp at h₂

theorem bAppInj : ∀ (b₁ b₂ w : List Char), '}' ∉ b₁ → '}' ∉ b₂ →
    b₁ ++ ('}' :: '}' :: w) = b₂ ++ ['}', '}'] → b₁ = b₂ := by
  intro b₁
  induction b₁ with
  | nil =>
    intro b₂ w _ hb₂ h
    cases b₂ with
    | nil => rfl
    | cons c t =>
      rw [List.nil_append, List.cons_append] at h
      injection h with hc _
      exact absurd (hc ▸ List.mem_cons_self c t) hb₂
  | cons c t ih =>
    intro b₂ w hb₁ hb₂ h
    cases b₂ with
    | nil =>
      rw [List.cons_append, List.nil_append] at h
      injection h with hc _
      exact absurd (hc.symm ▸ List.mem_cons_self c t) hb₁
    | cons d t₂ =>
      rw [List.cons_append, List.cons_append] at h
      injection h with hc htail
      have ht : t = t₂ := ih t₂ w (fun hm => hb₁ (List.mem_cons_of_mem c hm))
        (fun hm => hb₂ (List.mem_cons_of_mem d hm)) htail
      rw [hc, ht]

theorem tokNotPref {b₁ b₂ : List Char} (h₁ : BFree b₁) (h₂ : BFree b₂)
    (hne : b₁ ≠ b₂) : ¬ tokL b₁ <+: tokL b₂ := by
  rintro ⟨w, hw⟩
  simp only [tokL, List.cons_append] at hw
  injection hw with _ hw₁
  injection hw₁ with _ hw₂
  rw [List.append_assoc] at hw₂
  exact hne (bAppInj b₁ b₂ w h₁.2 h₂.2 hw₂)

theorem tok_cons (b : List Char) :
    tokL b = '{' :: ('{' :: (b ++ ['}', '}'])) := rfl

theorem notBraceTail {b : List Char} (hb : BFree b) :
    '{' ∉ b ++ ['}', '}'] := by
  intro h
  rcases List.mem_append.mp h with hA | hB
  · exact hb.1 hA
  · simp at hB

theorem tokNotInf {b₁ b₂ : List Char} (h₁ : BFree b₁) (h₂ : BFree b₂)
    (hne : b₁ ≠ b₂) : ¬ tokL b₁ <:+: tokL b₂ := by
  intro h
  rw [tok_cons b₂] at h
  rcases List.infix_cons_iff.mp h with hp | h'
  · exact tokNotPref h₁ h₂ hne hp
  · rcases List.infix_cons_iff.mp h' with hp' | h''
    · rw [tok_cons b₁] at hp'
      rcases List.cons_prefix_cons.mp hp' with ⟨-, hq⟩
      exact notBraceTail h₂ (hq.subset (List.mem_cons_self _ _))
    · exact notBraceTail h₂ (h''.subset (tokHeadMem b₁))

/-- No nonempty suffix of one token is a prefix of a token with a different
body. -/
theorem tokTokConds {b₁ b₂ : List Char} (h₁ : BFree b₁) (h₂ : BFree b₂)
    (hne : b₁ ≠ b₂) :
    ∀ u, u ≠ [] → u <:+ tokL b₁ → ¬ u <+: tokL b₂ := by
  intro u hu hsuf hpre
  have hmem : '{' ∈ u := tokPrefMem hpre hu
  rcases sufTokStruct h₁ hsuf hmem with rfl | rfl
  · exact tokNotPref h₁ h₂ hne hpre
  · rw [show tokL b₂ = '{' :: ('{' :: (b₂ ++ ['}', '}'])) from rfl] at hpre
    rcases List.cons_prefix_cons.mp hpre with ⟨-, hp'⟩
    cases hb : b₁ with
    | nil =>
      rw [hb, List.nil_append] at hp'
      rcases List.cons_prefix_cons.mp hp' with ⟨hcc, -⟩
      exact absurd hcc (by decide)
    | cons c t =>
      rw [hb, List.cons_append] at hp'
      rcases List.cons_prefix_cons.mp hp' with ⟨hcc, -⟩
      exact h₁.1 (hb ▸ (hcc ▸ List.mem_cons_self c t))

/-- Occurrences of a token are preserved by replacing a token with a
different brace-free body; the replacement text is arbitrary. -/
theorem preserveTok {b₁ b₂ : List Char} (rep : List Char)
    (h₁ : BFree b₁) (h₂ : BFree b₂) (hne : b₁ ≠ b₂) :
    ∀ fuel s, s.length ≤ fuel → tokL b₂ <:+: s →
      tokL b₂ <:+: replChars (tokL b₁) rep fuel s :=
  preserve (tokL b₁) rep (tokL b₂) (tok_ne b₁)
    (tokNotInf h₂ h₁ (Ne.symm hne))
    (tokNotInf h₁ h₂ hne)
    (tokTokConds h₁ h₂ hne)
    (tokTokConds h₂ h₁ (Ne.symm hne))

/-- After replacing a token by a nonempty brace-free text that does not
occur inside the token, no occurrence of the token remains. -/
theorem noRemainTok {b r : List Char}
    (hrl : '{' ∉ r) (hrr : '}' ∉ r) (hri : ¬ r <:+: tokL b) :
    ∀ fuel s, s.length ≤ fuel → ¬ tokL b <:+: replChars (tokL b) r fuel s :=
  noRemain (tokL b) r (tok_ne b)
    (fun h => hrl (h.subset (tokHeadMem b)))
    hri
    (fun u hu hsuf hpre => hrr (hpre.subset (tokSufMem hsuf hu)))
    (fun u hu hsuf hpre => hrl (hsuf.subset (tokPrefMem hpre hu)))

/-- Replacing any nonempty pattern by a nonempty brace-free text that does
not occur inside a token cannot create a new occurrence of that token. -/
theorem noCreateTok {pat r b : List Char} (hpat : pat ≠ [])
    (hrl : '{' ∉ r) (hrr : '}' ∉ r) (hri : ¬ r <:+: tokL b) :
    ∀ fuel s, s.length ≤ fuel → ¬ tokL b <:+: s →
      ¬ tokL b <:+: replChars pat r fuel s :=
  noCreate pat r (tokL b) hpat
    (fun h => hrl (h.subset (tokHeadMem b)))
    hri
    (fun u hu hsuf hpre => hrl (hsuf.subset (tokPrefMem hpre hu)))
    (fun u hu hsuf hpre => hrr (hpre.subset (tokSufMem hsuf hu)))

/-! ### Decimal representations

Placeholder names embed `str(qnum)` (Lean: `Nat.repr`).  We need that every
character of `Nat.repr n` is a decimal digit and that `Nat.repr` is
injective. -/

theorem digitChar_isDigit {m : Nat} (h : m < 10) :
    (Nat.digitChar m).isDigit = true := by
  interval_cases m <;> decide

theorem toDigitsCore_digits : ∀ (fuel n : Nat) (ds : List Char),
    (∀ c ∈ ds, c.isDigit = true) →
    ∀ c ∈ Nat.toDigitsCore 10 fuel n ds, c.isDigit = true := by
  intro fuel
  induction fuel with
  | zero =>
    intro n ds hds c hc
    exact hds c hc
  | succ f ih =>
    intro n ds hds c hc
    have hd : (Nat.digitChar (n % 10)).isDigit = true :=
      digitChar_isDigit (Nat.mod_lt _ (by norm_num))
    have hcons : ∀ x ∈ Nat.digitChar (n % 10) :: ds, x.isDigit = true := by
      intro x hx
      rcases List.mem_cons.mp hx with rfl | hx'
      · exact hd
      · exact hds x hx'
    by_cases h0 : n / 10 = 0
    · simp only [Nat.toDigitsCore, h0, if_pos] at hc
      exact hcons c hc
    · simp only [Nat.toDigitsCore, if_neg h0] at hc
      exact ih (n / 10) _ hcons c hc

theorem repr_data_digits (n : Nat) :
    ∀ c ∈ (Nat.repr n).data, c.isDigit = true := by
  intro c hc
  exact toDigitsCore_digits (n + 1) n [] (by simp) c hc

/-- Specification of the decimal digits of `n`, by most-significant-first
structural recursion. -/
def natChars (n : Nat) : List Char :=
  if n < 10 then [Nat.digitChar n]
  else natChars (n / 10) ++ [Nat.digitChar (n % 10)]
termination_by n
decreasing_by simp_wf; omega

theorem natChars_lt {n : Nat} (h : n < 10) :
    natChars n = [Nat.digitChar n] := by
  rw [natChars, if_pos h]

theorem natChars_ge {n : Nat} (h : ¬ n < 10) :
    natChars n = natChars (n / 10) ++ [Nat.digitChar (n % 10)] := by
  rw [natChars, if_neg h]

theorem toDigitsCore_eq_natChars : ∀ (fuel n : Nat) (ds : List Char),
    n < fuel → Nat.toDigitsCore 10 fuel n ds = natChars n ++ ds := by
  intro fuel
  induction fuel with
  | zero => intro n ds h; exact absurd h (Nat.not_lt_zero n)
  | succ f ih =>
    intro n ds h
    by_cases h0 : n / 10 = 0
    · have hn : n < 10 := by omega
      simp only [Nat.toDigitsCore, h0, if_pos]
      rw [natChars_lt hn, Nat.mod_eq_of_lt hn]
      rfl
    · have hn : ¬ n < 10 := by omega
      have hlt : n / 10 < f := by omega
      simp only [Nat.toDigitsCore, if_neg h0]
      rw [ih (n / 10) _ hlt, natChars_ge hn, List.append_assoc]
      rfl

theorem repr_eq_natChars (n : Nat) : (Nat.repr n).data = natChars n := by
  have h : (Nat.repr n).data = Nat.toDigitsCore 10 (n + 1) n [] := rfl
  rw [h, toDigitsCore_eq_natChars (n + 1) n [] (Nat.lt_succ_self n),
    List.append_nil]

theorem natChars_ne_nil (n : Nat) : natChars n ≠ [] := by
  by_cases h : n < 10
  · rw [natChars_lt h]; simp
  · rw [natChars_ge h]; simp

theorem digitChar_inj {m n : Nat} (hm : m < 10) (hn : n < 10)
    (h : Nat.digitChar m = Nat.digitChar n) : m = n := by
  interval_cases m <;> interval_cases n <;>
    first
    | rfl
    | exact absurd h (by decide)

theorem appendSingletonInj {α : Type} {l₁ l₂ : List α} {a b : α}
    (h : l₁ ++ [a] = l₂ ++ [b]) : l₁ = l₂ ∧ a = b := by
  have hr := congrArg List.reverse h
  simp only [List.reverse_append, List.reverse_singleton,
    List.singleton_append] at hr
  injection hr with h1 h2
  refine ⟨?_, h1⟩
  have := congrArg List.reverse h2
  simpa using this

theorem natChars_inj : ∀ m n : Nat, natChars m = natChars n → m = n := by
  intro m
  induction m using Nat.strong_induction_on with
  | _ m ih =>
    intro n h
    by_cases hm : m < 10 <;> by_cases hn : n < 10
    · rw [natChars_lt hm, natChars_lt hn] at h
      injection h with h1 _
      exact digitChar_inj hm hn h1
    · exfalso
      rw [natChars_lt hm, natChars_ge hn] at h
      have hlen := congrArg List.length h
      simp only [List.length_append, List.length_cons, List.length_nil] at hlen
      exact natChars_ne_nil (n / 10)
        (List.eq_nil_of_length_eq_zero (by omega))
    · exfalso
      rw [natChars_ge hm, natChars_lt hn] at h
      have hlen := congrArg List.length h
      simp only [List.length_append, List.length_cons, List.length_nil] at hlen
      exact natChars_ne_nil (m / 10)
        (List.eq_nil_of_length_eq_zero (by omega))
    · rw [natChars_ge hm, natChars_ge hn] at h
      obtain ⟨h1, h2⟩ := appendSingletonInj h
      have hdiv : m / 10 = n / 10 := ih (m / 10) (by omega) (n / 10) h1
      have hmod : m % 10 = n % 10 :=
        digitChar_inj (Nat.mod_lt _ (by norm_num))
          (Nat.mod_lt _ (by norm_num)) h2
      omega

theorem reprInj {m n : Nat} (h : Nat.repr m = Nat.repr n) : m = n :=
  natChars_inj m n (by rw [← repr_eq_natChars, ← repr_eq_natChars, h])

theorem notMemOfDigits {c : Char} {l : List Char} (hc : c.isDigit = false)
    (hl : ∀ d ∈ l, d.isDigit = true) : c ∉ l := by
  intro hm
  rw [hl c hm] at hc
  exact Bool.noConfusion hc

theorem bFreeOfDigits {l : List Char} (h : ∀ c ∈ l, c.isDigit = true) :
    BFree l :=
  ⟨notMemOfDigits (by decide) h, notMemOfDigits (by decide) h⟩

theorem reprBFree (n : Nat) : BFree (Nat.repr n).data :=
  bFreeOfDigits (repr_data_digits n)

/-! ### The program (`app.py`)

The data model follows §3 of the specification: JSON dictionaries are
records with `Option` fields, a missing field playing the role of a missing
key (Python `KeyError` carries the key name). -/

/-- `t` occurs in `s` as a contiguous substring. -/
def occursIn (t s : String) : Prop := t.data <:+: s.data

instance (t s : String) : Decidable (occursIn t s) :=
  inferInstanceAs (Decidable (t.data <:+: s.data))

/-- Python `s.replace(pat, rep)` on strings (nonempty `pat`). -/
def pyStrReplace (s pat rep : String) : String :=
  ⟨pyReplace s.data pat.data rep.data⟩

/-- The characters removed by Python `str.strip()`: the code points for
which CPython's `str.isspace()` holds (U+0009-U+000D, U+001C-U+001F,
space, U+0085, U+00A0, U+1680, U+2000-U+200A, U+2028, U+2029, U+202F,
U+205F, U+3000). -/
def pyWhitespace : List Char :=
  ['\t', '\n', '\x0b', '\x0c', '\r', '\x1c', '\x1d', '\x1e', '\x1f',
   ' ', '\x85', '\xa0', '\u1680', '\u2000', '\u2001', '\u2002',
   '\u2003', '\u2004', '\u2005', '\u2006', '\u2007', '\u2008',
   '\u2009', '\u200a', '\u2028', '\u2029', '\u202f', '\u205f',
   '\u3000']

def isPySpace (c : Char) : Bool :=
  pyWhitespace.contains c

/-- Python `s.strip()`: remove leading and trailing whitespace. -/
def pyStrip (s : String) : String :=
  ⟨((s.data.dropWhile isPySpace).reverse.dropWhile isPySpace).reverse⟩

/-- A JSON scalar as it can appear in the `id` field; Python applies `str`
to it (`str(quiz["id"])`, app.py line 87). -/
inductive JsonVal where
  | jnum (n : Int)
  | jstr (s : String)
deriving DecidableEq

/-- Python `str` on a JSON scalar. -/
def pyStr : JsonVal → String
  | JsonVal.jnum n => toString n
  | JsonVal.jstr s => s

/-- One question of a quiz (spec §3); `Option` marks possibly missing
keys. -/
structure Question where
  QUESTION : Option String
  ANSWERS : Option (List String)
  CORRECT : Option Int
deriving DecidableEq

/-- One quiz record (spec §3). -/
structure Quiz where
  id : Option JsonVal
  TITLE : Option String
  QUESTIONS : Option (List Question)
deriving DecidableEq

/-- The parsed JSON document; `data.get("quizzes", [])` (app.py line 64)
is `quizzes.getD []`. -/
structure QuizData where
  quizzes : Option (List Quiz)
deriving DecidableEq

/-- `f"{{{{Option_{qnum}{i}}}}}"` (app.py line 22). -/
def optionPlaceholder (qnum i : Nat) : String :=
  "\x7b\x7bOption_" ++ toString qnum ++ toString i ++ "\x7d\x7d"

/-- `f"{{{{QUESTION_{qnum}}}}}"` (app.py line 75). -/
def questionPlaceholder (qnum : Nat) : String :=
  "\x7b\x7bQUESTION_" ++ toString qnum ++ "\x7d\x7d"

/-- `f"{{{{ANSWER_{qnum}{chr(64 + anum)}}}}}"` (app.py line 80). -/
def answerPlaceholder (qnum anum : Nat) : String :=
  "\x7b\x7bANSWER_" ++ toString qnum ++ String.singleton (Char.ofNat (64 + anum)) ++ "\x7d\x7d"

/-- `markRight` (app.py lines 14-24): for `i in range(1, 5)` replace
`{{Option_<qnum><i>}}` with `"true"` if `i - 1 == optionNo` else
`"false"`. -/
def markRight (quiz_content : String) (qnum : Nat) (optionNo : Int) : String :=
  (List.range' 1 4).foldl
    (fun content i =>
      pyStrReplace content (optionPlaceholder qnum i)
        (if ((i : Int) - 1) = optionNo then "true" else "false"))
    quiz_content

/-- The answer loop (app.py lines 79-81): `enumerate(q["ANSWERS"], start=1)`
replacing `{{ANSWER_<qnum><letter>}}` with the answer text. -/
def fillAnswers (qnum : Nat) : String → Nat → List String → String
  | content, _, [] => content
  | content, anum, answer_text :: rest =>
      fillAnswers qnum
        (pyStrReplace content (answerPlaceholder qnum anum) answer_text)
        (anum + 1) rest

/-- The body of the question loop (app.py lines 72-84).  Key accesses
happen in source order: `QUESTION`, then `ANSWERS`, then `CORRECT`. -/
def fillQuestion (content : String) (qnum : Nat) (q : Question) :
    Except String String :=
  match q.QUESTION with
  | none => Except.error "QUESTION"
  | some question_text =>
    let c₁ := pyStrReplace content (questionPlaceholder qnum) question_text
    match q.ANSWERS with
    | none => Except.error "ANSWERS"
    | some answers =>
      let c₂ := fillAnswers qnum c₁ 1 answers
      match q.CORRECT with
      | none => Except.error "CORRECT"
      | some correct => Except.ok (markRight c₂ qnum correct)

/-- `for qnum, q in enumerate(quiz["QUESTIONS"], start=1)` (app.py
line 72). -/
def fillQuestions : String → Nat → List Question → Except String String
  | content, _, [] => Except.ok content
  | content, qnum, q :: rest =>
      match fillQuestion content qnum q with
      | Except.error k => Except.error k
      | Except.ok c => fillQuestions c (qnum + 1) rest

/-- The per-quiz body of the loop (app.py lines 64-90): fill the template
copy, fill the metadata block, concatenate.  This is the Template Filler
`fill` of spec §4.1. -/
def fill (xml_template meta_block_template : String) (quiz : Quiz) :
    Except String String :=
  match quiz.TITLE with
  | none => Except.error "TITLE"
  | some title =>
    let c₀ := pyStrReplace xml_template "{{TITLE}}" title
    match quiz.QUESTIONS with
    | none => Except.error "QUESTIONS"
    | some qs =>
      match fillQuestions c₀ 1 qs with
      | Except.error k => Except.error k
      | Except.ok quiz_content =>
        match quiz.id with
        | none => Except.error "id"
        | some idv =>
          Except.ok (quiz_content ++
            pyStrReplace meta_block_template "{{ID}}" (pyStr idv))

/-- The zip-building loop (app.py lines 62-94): one entry
`(filename, contents)` per quiz, filenames `f"{base_name}_{idx}.xml"` with
`idx` counting from 1; an uncaught `KeyError` discards the buffer. -/
def buildEntries (xml meta base : String) :
    Nat → List Quiz → Except String (List (String × String))
  | _, [] => Except.ok []
  | idx, quiz :: rest =>
      match fill xml meta quiz with
      | Except.error k => Except.error k
      | Except.ok full_xml =>
        match buildEntries xml meta base (idx + 1) rest with
        | Except.error k => Except.error k
        | Except.ok es =>
            Except.ok ((base ++ "_" ++ toString idx ++ ".xml", full_xml) :: es)

/-- A `POST /generate_xmls` request: whether the `quiz_json` file part is
present, the raw `base_name` form value (Python
`request.form.get("base_name", "")`, so a missing field is `""`), and the
outcome of `json.load` on the uploaded file. -/
structure Request where
  hasQuizJson : Bool
  base_name : String
  parsed : Except String QuizData

/-- The observable outcome of the handler.  `abort c m` is Flask
`abort(c, m)`; `keyError k` is an uncaught Python `KeyError` escaping the
handler (Flask then produces a 500 Internal Server Error, not an
`abort`); `file` is a successful `send_file` with the zip entries, the
download name and the mimetype. -/
inductive Response where
  | abort (code : Nat) (msg : String)
  | keyError (key : String)
  | file (entries : List (String × String)) (downloadName mimetype : String)
deriving DecidableEq

/-- Does the handler return a 400 client error? -/
def isAbort400 : Response → Bool
  | Response.abort 400 _ => true
  | _ => false

/-- `generate_xmls` (app.py lines 36-104).  `templates` is the outcome of
reading the two template files (`Except.error` = `FileNotFoundError`). -/
def generate_xmls (req : Request)
    (templates : Except String (String × String)) : Response :=
  if req.hasQuizJson = false then
    Response.abort 400 "No JSON file part"
  else if pyStrip req.base_name = "" then
    Response.abort 400 "Base filename is required"
  else
    match req.parsed with
    | Except.error e => Response.abort 400 ("Invalid JSON: " ++ e)
    | Except.ok data =>
      match templates with
      | Except.error e =>
          Response.abort 500 ("Template files not found: " ++ e)
      | Except.ok (xml_template, meta_block_template) =>
        match buildEntries xml_template meta_block_template
            (pyStrip req.base_name) 1 (data.quizzes.getD []) with
        | Except.error k => Response.keyError k
        | Except.ok entries =>
            Response.file entries (pyStrip req.base_name ++ "_xmls.zip")
              "application/zip"

/-! ### Basic facts about `pyStrip` and the handler control flow -/

theorem pyStrip_data (s : String) :
    (pyStrip s).data =
      ((s.data.dropWhile isPySpace).reverse.dropWhile isPySpace).reverse := rfl

theorem pyStrip_all_space {s : String}
    (h : ∀ c ∈ s.data, isPySpace c = true) : pyStrip s = "" := by
  unfold pyStrip
  rw [List.dropWhile_eq_nil_iff.mpr (fun x hx => h x hx)]
  rfl

theorem getLastOfSuf {u l : List Char} (h : u <:+ l) (hu : u ≠ []) :
    l.getLast? = u.getLast? := by
  obtain ⟨v, rfl⟩ := h
  rw [List.getLast?_append]
  cases hx : u.getLast? with
  | none =>
    exfalso
    cases u with
    | nil => exact hu rfl
    | cons a w => simp at hx
  | some x => simp [Option.or]

theorem pyStrip_head_not_space {s : String} {c : Char}
    (h : (pyStrip s).data.head? = some c) : isPySpace c = false := by
  rw [pyStrip_data, List.head?_reverse] at h
  have hY : (s.data.dropWhile isPySpace).reverse.dropWhile isPySpace ≠ [] := by
    intro h0; rw [h0] at h; simp at h
  have hsuf := List.dropWhile_suffix (l := (s.data.dropWhile isPySpace).reverse)
    isPySpace
  have h2 : ((s.data.dropWhile isPySpace).reverse).getLast? = some c := by
    rw [getLastOfSuf hsuf hY]; exact h
  rw [List.getLast?_reverse] at h2
  have h3 := List.head?_dropWhile_not isPySpace s.data
  rw [h2] at h3
  simpa using h3

theorem pyStrip_last_not_space {s : String} {c : Char}
    (h : (pyStrip s).data.getLast? = some c) : isPySpace c = false := by
  rw [pyStrip_data, List.getLast?_reverse] at h
  have h3 := List.head?_dropWhile_not isPySpace
    (s.data.dropWhile isPySpace).reverse
  rw [h] at h3
  simpa using h3

theorem generate_xmls_file_inv {req : Request}
    {tpls : Except String (String × String)}
    {entries : List (String × String)} {dl mt : String}
    (h : generate_xmls req tpls = Response.file entries dl mt) :
    dl = pyStrip req.base_name ++ "_xmls.zip" ∧ mt = "application/zip" ∧
    ∃ x m d, tpls = Except.ok (x, m) ∧ req.parsed = Except.ok d ∧
      buildEntries x m (pyStrip req.base_name) 1 (d.quizzes.getD []) =
        Except.ok entries := by
  unfold generate_xmls at h
  by_cases h1 : req.hasQuizJson = false
  · rw [if_pos h1] at h; exact Response.noConfusion h
  rw [if_neg h1] at h
  by_cases h2 : pyStrip req.base_name = ""
  · rw [if_pos h2] at h; exact Response.noConfusion h
  rw [if_neg h2] at h
  cases hp : req.parsed with
  | error e => rw [hp] at h; exact Response.noConfusion h
  | ok d =>
    rw [hp] at h
    cases tpls with
    | error e => exact Response.noConfusion h
    | ok pr =>
      obtain ⟨x, m⟩ := pr
      dsimp only at h
      cases hb : buildEntries x m (pyStrip req.base_name) 1
          (d.quizzes.getD []) with
      | error k => rw [hb] at h; exact Response.noConfusion h
      | ok es =>
        rw [hb] at h
        injection h with he hdl hmt
        exact ⟨hdl.symm, hmt.symm, x, m, d, rfl, rfl, he ▸ hb⟩

theorem generate_xmls_run {req : Request} {x m : String} {d : QuizData}
    (hq : req.hasQuizJson = true) (hb : pyStrip req.base_name ≠ "")
    (hp : req.parsed = Except.ok d) :
    generate_xmls req (Except.ok (x, m)) =
      match buildEntries x m (pyStrip req.base_name) 1
          (d.quizzes.getD []) with
      | Except.error k => Response.keyError k
      | Except.ok entries =>
          Response.file entries (pyStrip req.base_name ++ "_xmls.zip")
            "application/zip" := by
  unfold generate_xmls
  rw [if_neg (by simp [hq]), if_neg hb, hp]

theorem buildEntries_names {x m b : String} :
    ∀ (qs : List Quiz) (idx : Nat) (es : List (String × String)),
      buildEntries x m b idx qs = Except.ok es →
      ∀ p ∈ es, ∃ i : Nat, p.1 = b ++ "_" ++ toString i ++ ".xml" := by
  intro qs
  induction qs with
  | nil =>
    intro idx es h p hp
    unfold buildEntries at h
    injection h with h1
    subst h1
    simp at hp
  | cons qz rest ih =>
    intro idx es h p hp
    unfold buildEntries at h
    cases hf : fill x m qz with
    | error k => rw [hf] at h; exact Except.noConfusion h
    | ok fx =>
      rw [hf] at h
      cases hr : buildEntries x m b (idx + 1) rest with
      | error k => rw [hr] at h; exact Except.noConfusion h
      | ok es' =>
        rw [hr] at h
        injection h with h1
        subst h1
        rcases List.mem_cons.mp hp with rfl | hp'
        · exact ⟨idx, rfl⟩
        · exact ih (idx + 1) es' hr p hp'

/-- C6: request-shape errors give 400, a parse failure gives 400 with the
parser text, missing template files give 500, and otherwise processing
proceeds (the handler either raises a `KeyError` or returns the
archive). -/
theorem httpErrorContract :
    (∀ req tpls, req.hasQuizJson = false →
        generate_xmls req tpls = Response.abort 400 "No JSON file part")
  ∧ (∀ req tpls, pyStrip req.base_name = "" →
        req.hasQuizJson = true →
        generate_xmls req tpls = Response.abort 400 "Base filename is required")
  ∧ (∀ req tpls e, req.hasQuizJson = true → pyStrip req.base_name ≠ "" →
        req.parsed = Except.error e →
        generate_xmls req tpls = Response.abort 400 ("Invalid JSON: " ++ e))
  ∧ (∀ (req : Request) (d : QuizData) e, req.hasQuizJson = true →
        pyStrip req.base_name ≠ "" → req.parsed = Except.ok d →
        generate_xmls req (Except.error e) =
          Response.abort 500 ("Template files not found: " ++ e))
  ∧ (∀ (req : Request) (d : QuizData) x m, req.hasQuizJson = true →
        pyStrip req.base_name ≠ "" → req.parsed = Except.ok d →
        (∃ k, generate_xmls req (Except.ok (x, m)) = Response.keyError k) ∨
        (∃ entries, generate_xmls req (Except.ok (x, m)) =
            Response.file entries (pyStrip req.base_name ++ "_xmls.zip")
              "application/zip")) := by
  refine ⟨?_, ?_, ?_, ?_, ?_⟩
  · intro req tpls h
    unfold generate_xmls
    rw [if_pos h]
  · intro req tpls hb hq
    unfold generate_xmls
    rw [if_neg (by simp [hq]), if_pos hb]
  · intro req tpls e hq hb hp
    unfold generate_xmls
    rw [if_neg (by simp [hq]), if_neg hb, hp]
  · intro req d e hq hb hp
    unfold generate_xmls
    rw [if_neg (by simp [hq]), if_neg hb, hp]
  · intro req d x m hq hb hp
    rw [generate_xmls_run hq hb hp]
    cases hbe : buildEntries x m (pyStrip req.base_name) 1
        (d.quizzes.getD []) with
    | error k => exact Or.inl ⟨k, rfl⟩
    | ok entries => exact Or.inr ⟨entries, rfl⟩

/-- C9: a parsed document without a `"quizzes"` key (or with an empty
list) yields a successful response whose archive has no entries. -/
theorem emptyQuizzesOk (req : Request) (x m : String) (d : QuizData)
    (hq : req.hasQuizJson = true) (hb : pyStrip req.base_name ≠ "")
    (hp : req.parsed = Except.ok d) (hz : d.quizzes.getD [] = []) :
    generate_xmls req (Except.ok (x, m)) =
      Response.file [] (pyStrip req.base_name ++ "_xmls.zip")
        "application/zip" := by
  rw [generate_xmls_run hq hb hp, hz]
  rfl

/-- C10: `base_name` is stripped before any use — a whitespace-only value
is rejected exactly like a missing one, all produced names are built from
the stripped value, and a stripped value never starts or ends with
whitespace. -/
theorem baseNameStripped :
    (∀ req tpls, req.hasQuizJson = true →
        (∀ c ∈ req.base_name.data, isPySpace c = true) →
        generate_xmls req tpls = Response.abort 400 "Base filename is required")
  ∧ (∀ req tpls entries dl mt,
        generate_xmls req tpls = Response.file entries dl mt →
        dl = pyStrip req.base_name ++ "_xmls.zip" ∧
        ∀ p ∈ entries, ∃ i : Nat,
          p.1 = pyStrip req.base_name ++ "_" ++ toString i ++ ".xml")
  ∧ (∀ (s : String) (c : Char), (pyStrip s).data.head? = some c →
        isPySpace c = false)
  ∧ (∀ (s : String) (c : Char), (pyStrip s).data.getLast? = some c →
        isPySpace c = false) := by
  refine ⟨?_, ?_, fun s c h => pyStrip_head_not_space h,
    fun s c h => pyStrip_last_not_space h⟩
  · intro req tpls hq hsp
    unfold generate_xmls
    rw [if_neg (by simp [hq]), if_pos (pyStrip_all_space hsp)]
  · intro req tpls entries dl mt h
    obtain ⟨hdl, hmt, x, m, d, htp, hp, hbe⟩ := generate_xmls_file_inv h
    exact ⟨hdl, buildEntries_names _ _ _ hbe⟩

/-- C8: the pipeline is deterministic — two runs on identical inputs give
identical responses, in particular byte-identical per-file contents. -/
theorem pipelineDeterministic :
    ∀ (r₁ r₂ : Request) (t₁ t₂ : Except String (String × String)),
      r₁.hasQuizJson = r₂.hasQuizJson → r₁.base_name = r₂.base_name →
      r₁.parsed = r₂.parsed → t₁ = t₂ →
      generate_xmls r₁ t₁ = generate_xmls r₂ t₂ ∧
      ∀ e₁ d₁ m₁ e₂ d₂ m₂,
        generate_xmls r₁ t₁ = Response.file e₁ d₁ m₁ →
        generate_xmls r₂ t₂ = Response.file e₂ d₂ m₂ → e₁ = e₂ := by
  intro r₁ r₂ t₁ t₂ h1 h2 h3 h4
  obtain ⟨a₁, b₁, c₁⟩ := r₁
  obtain ⟨a₂, b₂, c₂⟩ := r₂
  simp only at h1 h2 h3
  subst h1; subst h2; subst h3; subst h4
  refine ⟨rfl, ?_⟩
  intro e₁ d₁ m₁ e₂ d₂ m₂ hA hB
  rw [hA] at hB
  cases hB
  rfl

/-! ### Missing keys (`KeyError`) -/

/-- All three question keys are present. -/
def questionOk (q : Question) : Prop :=
  q.QUESTION.isSome = true ∧ q.ANSWERS.isSome = true ∧ q.CORRECT.isSome = true

instance (q : Question) : Decidable (questionOk q) :=
  inferInstanceAs (Decidable (_ ∧ _ ∧ _))

/-- All required quiz keys are present, recursively. -/
def quizOk (qz : Quiz) : Prop :=
  qz.TITLE.isSome = true ∧ qz.id.isSome = true ∧ qz.QUESTIONS.isSome = true ∧
  ∀ q ∈ qz.QUESTIONS.getD [], questionOk q

instance (qz : Quiz) : Decidable (quizOk qz) :=
  inferInstanceAs (Decidable (_ ∧ _ ∧ _ ∧ _))

/-- The names of the dictionary keys the handler can fail on. -/
def requiredKeys : List String :=
  ["TITLE", "QUESTIONS", "QUESTION", "ANSWERS", "CORRECT", "id"]

theorem fillQuestion_error_key {content : String} {n : Nat} {q : Question}
    {k : String} (h : fillQuestion content n q = Except.error k) :
    k = "QUESTION" ∨ k = "ANSWERS" ∨ k = "CORRECT" := by
  unfold fillQuestion at h
  cases hQ : q.QUESTION with
  | none => rw [hQ] at h; injection h with h'; exact Or.inl h'.symm
  | some qt =>
    rw [hQ] at h
    cases hA : q.ANSWERS with
    | none => rw [hA] at h; injection h with h'; exact Or.inr (Or.inl h'.symm)
    | some ans =>
      rw [hA] at h
      cases hC : q.CORRECT with
      | none => rw [hC] at h; injection h with h'; exact Or.inr (Or.inr h'.symm)
      | some c => rw [hC] at h; exact Except.noConfusion h

theorem fillQuestion_ok_questionOk {content : String} {n : Nat} {q : Question}
    {c : String} (h : fillQuestion content n q = Except.ok c) :
    questionOk q := by
  unfold fillQuestion at h
  cases hQ : q.QUESTION with
  | none => rw [hQ] at h; exact Except.noConfusion h
  | some qt =>
    rw [hQ] at h
    cases hA : q.ANSWERS with
    | none => rw [hA] at h; exact Except.noConfusion h
    | some ans =>
      rw [hA] at h
      cases hC : q.CORRECT with
      | none => rw [hC] at h; exact Except.noConfusion h
      | some co =>
        exact ⟨by rw [hQ]; rfl, by rw [hA]; rfl, by rw [hC]; rfl⟩

theorem fillQuestions_error_key :
    ∀ (qs : List Question) (content : String) (n : Nat) (k : String),
      fillQuestions content n qs = Except.error k →
      k = "QUESTION" ∨ k = "ANSWERS" ∨ k = "CORRECT" := by
  intro qs
  induction qs with
  | nil => intro content n k h; exact Except.noConfusion h
  | cons q rest ih =>
    intro content n k h
    unfold fillQuestions at h
    cases hf : fillQuestion content n q with
    | error k' =>
      rw [hf] at h
      injection h with h'
      exact h' ▸ fillQuestion_error_key hf
    | ok c =>
      rw [hf] at h
      exact ih c (n + 1) k h

theorem fillQuestions_ok_all :
    ∀ (qs : List Question) (content : String) (n : Nat) (out : String),
      fillQuestions content n qs = Except.ok out →
      ∀ q ∈ qs, questionOk q := by
  intro qs
  induction qs with
  | nil => intro _ _ _ _ q hq; simp at hq
  | cons q0 rest ih =>
    intro content n out h q hq
    unfold fillQuestions at h
    cases hf : fillQuestion content n q0 with
    | error k => rw [hf] at h; exact Except.noConfusion h
    | ok c =>
      rw [hf] at h
      rcases List.mem_cons.mp hq with rfl | hq'
      · exact fillQuestion_ok_questionOk hf
      · exact ih c (n + 1) out h q hq'

theorem fill_error_key {x m : String} {qz : Quiz} {k : String}
    (h : fill x m qz = Except.error k) : k ∈ requiredKeys := by
  unfold fill at h
  cases hT : qz.TITLE with
  | none => rw [hT] at h; injection h with h'; subst h'; decide
  | some title =>
    rw [hT] at h
    cases hQ : qz.QUESTIONS with
    | none => rw [hQ] at h; injection h with h'; subst h'; decide
    | some qs =>
      rw [hQ] at h
      dsimp only at h
      cases hf : fillQuestions (pyStrReplace x "{{TITLE}}" title) 1 qs with
      | error k' =>
        rw [hf] at h
        injection h with h'
        subst h'
        rcases fillQuestions_error_key qs _ 1 k' hf with rfl | rfl | rfl <;>
          decide
      | ok qc =>
        rw [hf] at h
        cases hid : qz.id with
        | none => rw [hid] at h; injection h with h'; subst h'; decide
        | some idv => rw [hid] at h; exact Except.noConfusion h

theorem fill_ok_quizOk {x m : String} {qz : Quiz} {out : String}
    (h : fill x m qz = Except.ok out) : quizOk qz := by
  unfold fill at h
  cases hT : qz.TITLE with
  | none => rw [hT] at h; exact Except.noConfusion h
  | some title =>
    rw [hT] at h
    cases hQ : qz.QUESTIONS with
    | none => rw [hQ] at h; exact Except.noConfusion h
    | some qs =>
      rw [hQ] at h
      dsimp only at h
      cases hf : fillQuestions (pyStrReplace x "{{TITLE}}" title) 1 qs with
      | error k => rw [hf] at h; exact Except.noConfusion h
      | ok qc =>
        rw [hf] at h
        cases hid : qz.id with
        | none => rw [hid] at h; exact Except.noConfusion h
        | some idv =>
          refine ⟨by rw [hT]; rfl, by rw [hid]; rfl, by rw [hQ]; rfl, ?_⟩
          intro q hq
          rw [hQ] at hq
          exact fillQuestions_ok_all qs _ 1 qc hf q hq

theorem buildEntries_error_key {x m b : String} :
    ∀ (qs : List Quiz) (idx : Nat) (k : String),
      buildEntries x m b idx qs = Except.error k → k ∈ requiredKeys := by
  intro qs
  induction qs with
  | nil => intro idx k h; exact Except.noConfusion h
  | cons qz rest ih =>
    intro idx k h
    unfold buildEntries at h
    cases hf : fill x m qz with
    | error k' =>
      rw [hf] at h
      injection h with h'
      exact h' ▸ fill_error_key hf
    | ok fx =>
      rw [hf] at h
      cases hr : buildEntries x m b (idx + 1) rest with
      | error k' =>
        rw [hr] at h
        injection h with h'
        exact h' ▸ ih (idx + 1) k' hr
      | ok es => rw [hr] at h; exact Except.noConfusion h

theorem buildEntries_ok_all {x m b : String} :
    ∀ (qs : List Quiz) (idx : Nat) (es : List (String × String)),
      buildEntries x m b idx qs = Except.ok es → ∀ qz ∈ qs, quizOk qz := by
  intro qs
  induction qs with
  | nil => intro _ _ _ qz hqz; simp at hqz
  | cons q0 rest ih =>
    intro idx es h qz hqz
    unfold buildEntries at h
    cases hf : fill x m q0 with
    | error k => rw [hf] at h; exact Except.noConfusion h
    | ok fx =>
      rw [hf] at h
      cases hr : buildEntries x m b (idx + 1) rest with
      | error k => rw [hr] at h; exact Except.noConfusion h
      | ok es' =>
        rcases List.mem_cons.mp hqz with rfl | hqz'
        · exact fill_ok_quizOk hf
        · exact ih (idx + 1) es' hr qz hqz'

/-- C2, counterexample: a quiz record with a missing `TITLE` key makes the
handler raise an uncaught `KeyError`; it does not return a 400 client
error. -/
theorem missingKeyCex :
    generate_xmls ⟨true, "b", Except.ok ⟨some [⟨none, none, none⟩]⟩⟩
        (Except.ok ("t", "m")) = Response.keyError "TITLE" ∧
    isAbort400 (generate_xmls ⟨true, "b",
        Except.ok ⟨some [⟨none, none, none⟩]⟩⟩ (Except.ok ("t", "m"))) =
      false := by
  decide

/-- C2, amended: a quiz record or question with a missing required key
makes the handler raise an uncaught `KeyError` naming that key — which the
framework surfaces as a 500 Internal Server Error, not a 400 — and no
archive is returned. -/
theorem missingKeyAmended (req : Request) (x m : String) (d : QuizData)
    (qs : List Quiz)
    (hq : req.hasQuizJson = true) (hb : pyStrip req.base_name ≠ "")
    (hp : req.parsed = Except.ok d) (hqs : d.quizzes = some qs)
    (hbad : ∃ qz ∈ qs, ¬ quizOk qz) :
    ∃ k, generate_xmls req (Except.ok (x, m)) = Response.keyError k ∧
      k ∈ requiredKeys ∧
      ∀ entries dl mt,
        generate_xmls req (Except.ok (x, m)) ≠ Response.file entries dl mt := by
  rw [generate_xmls_run hq hb hp]
  have hlist : d.quizzes.getD [] = qs := by rw [hqs]; rfl
  rw [hlist]
  cases hbe : buildEntries x m (pyStrip req.base_name) 1 qs with
  | error k =>
    refine ⟨k, rfl, buildEntries_error_key qs 1 k hbe, ?_⟩
    intro entries dl mt hcontra
    exact Response.noConfusion hcontra
  | ok es =>
    exfalso
    obtain ⟨qz, hqz, hno⟩ := hbad
    exact hno (buildEntries_ok_all qs 1 es hbe qz hqz)

theorem missingKeyAmended_witness :
    ∃ k, generate_xmls ⟨true, "b", Except.ok ⟨some [⟨none, none, none⟩]⟩⟩
        (Except.ok ("t", "m")) = Response.keyError k ∧
      k ∈ requiredKeys ∧
      ∀ entries dl mt,
        generate_xmls ⟨true, "b", Except.ok ⟨some [⟨none, none, none⟩]⟩⟩
          (Except.ok ("t", "m")) ≠ Response.file entries dl mt :=
  missingKeyAmended ⟨true, "b", Except.ok ⟨some [⟨none, none, none⟩]⟩⟩
    "t" "m" ⟨some [⟨none, none, none⟩]⟩ [⟨none, none, none⟩]
    rfl (by decide) rfl rfl
    ⟨⟨none, none, none⟩, List.mem_singleton.mpr rfl, by decide⟩

theorem httpErrorContract_witness :
    generate_xmls ⟨false, "x", Except.error "boom"⟩ (Except.ok ("a", "b")) =
      Response.abort 400 "No JSON file part" ∧
    generate_xmls ⟨true, " ", Except.ok ⟨none⟩⟩ (Except.ok ("a", "b")) =
      Response.abort 400 "Base filename is required" ∧
    generate_xmls ⟨true, "n", Except.error "Expecting value"⟩
        (Except.ok ("a", "b")) =
      Response.abort 400 "Invalid JSON: Expecting value" ∧
    generate_xmls ⟨true, "n", Except.ok ⟨none⟩⟩ (Except.error "meta.xml") =
      Response.abort 500 "Template files not found: meta.xml" :=
  ⟨httpErrorContract.1 _ _ rfl,
   httpErrorContract.2.1 _ _ (by decide) rfl,
   httpErrorContract.2.2.1 _ _ _ rfl (by decide) rfl,
   httpErrorContract.2.2.2.1 _ ⟨none⟩ _ rfl (by decide) rfl⟩

theorem emptyQuizzesOk_witness :
    generate_xmls ⟨true, "q", Except.ok ⟨none⟩⟩ (Except.ok ("x", "m")) =
      Response.file [] (pyStrip "q" ++ "_xmls.zip") "application/zip" :=
  emptyQuizzesOk ⟨true, "q", Except.ok ⟨none⟩⟩ "x" "m" ⟨none⟩
    rfl (by decide) rfl rfl

theorem baseNameStripped_witness :
    generate_xmls ⟨true, " \t ", Except.ok ⟨none⟩⟩ (Except.ok ("a", "b")) =
      Response.abort 400 "Base filename is required" ∧
    isPySpace 'q' = false :=
  ⟨baseNameStripped.1 ⟨true, " \t ", Except.ok ⟨none⟩⟩ (Except.ok ("a", "b"))
      rfl (by decide),
   baseNameStripped.2.2.1 " q " 'q' (by decide)⟩

theorem pipelineDeterministic_witness :
    generate_xmls ⟨true, "q", Except.ok ⟨none⟩⟩ (Except.ok ("x", "m")) =
      generate_xmls ⟨true, "q", Except.ok ⟨none⟩⟩ (Except.ok ("x", "m")) :=
  (pipelineDeterministic ⟨true, "q", Except.ok ⟨none⟩⟩
    ⟨true, "q", Except.ok ⟨none⟩⟩ (Except.ok ("x", "m"))
    (Except.ok ("x", "m")) rfl rfl rfl rfl).1

/-! ### C5: archive layout -/

theorem buildEntries_spec {x m b : String} :
    ∀ (qs : List Quiz) (idx : Nat) (es : List (String × String)),
      buildEntries x m b idx qs = Except.ok es →
      es.length = qs.length ∧
      ∀ i (hq : i < qs.length) (he : i < es.length),
        (es.get ⟨i, he⟩).1 = b ++ "_" ++ toString (idx + i) ++ ".xml" ∧
        fill x m (qs.get ⟨i, hq⟩) = Except.ok (es.get ⟨i, he⟩).2 := by
  intro qs
  induction qs with
  | nil =>
    intro idx es h
    unfold buildEntries at h
    injection h with h1
    subst h1
    exact ⟨rfl, fun i hq => absurd hq (by simp)⟩
  | cons qz rest ih =>
    intro idx es h
    unfold buildEntries at h
    cases hf : fill x m qz with
    | error k => rw [hf] at h; exact Except.noConfusion h
    | ok fx =>
      rw [hf] at h
      cases hr : buildEntries x m b (idx + 1) rest with
      | error k => rw [hr] at h; exact Except.noConfusion h
      | ok es' =>
        rw [hr] at h
        injection h with h1
        subst h1
        obtain ⟨hlen, hspec⟩ := ih (idx + 1) es' hr
        refine ⟨by simp [hlen], ?_⟩
        intro i hq he
        cases i with
        | zero => exact ⟨rfl, hf⟩
        | succ j =>
          have hq' : j < rest.length := by simpa using hq
          have he' : j < es'.length := by simpa using he
          obtain ⟨hn, hfj⟩ := hspec j hq' he'
          refine ⟨?_, hfj⟩
          show (es'.get ⟨j, he'⟩).1 = b ++ "_" ++ toString (idx + (j + 1)) ++ ".xml"
          rw [hn, show idx + 1 + j = idx + (j + 1) from by omega]

theorem fill_ok_decomp {x m : String} {qz : Quiz} {out : String}
    (h : fill x m qz = Except.ok out) :
    ∃ title qs qc idv, qz.TITLE = some title ∧ qz.QUESTIONS = some qs ∧
      qz.id = some idv ∧
      fillQuestions (pyStrReplace x "{{TITLE}}" title) 1 qs = Except.ok qc ∧
      out = qc ++ pyStrReplace m "{{ID}}" (pyStr idv) := by
  unfold fill at h
  cases hT : qz.TITLE with
  | none => rw [hT] at h; exact Except.noConfusion h
  | some title =>
    rw [hT] at h
    cases hQ : qz.QUESTIONS with
    | none => rw [hQ] at h; exact Except.noConfusion h
    | some qs =>
      rw [hQ] at h
      dsimp only at h
      cases hfq : fillQuestions (pyStrReplace x "{{TITLE}}" title) 1 qs with
      | error k => rw [hfq] at h; exact Except.noConfusion h
      | ok qc =>
        rw [hfq] at h
        cases hid : qz.id with
        | none => rw [hid] at h; exact Except.noConfusion h
        | some idv =>
          rw [hid] at h
          injection h with h1
          exact ⟨title, qs, qc, idv, rfl, rfl, rfl, hfq, h1.symm⟩

/-- C5: on success the archive holds exactly one entry per quiz record,
entry `i` (1-based, submission order) is named `<base>_<i>.xml` and holds
the filled quiz template concatenated with no separator to the metadata
block with `{{ID}}` replaced by the string form of `quiz.id`; the download
name is `<base>_xmls.zip`. -/
theorem archiveLayout (req : Request) (x m : String) (d : QuizData)
    (qs : List Quiz) (entries : List (String × String))
    (hq : req.hasQuizJson = true) (hb : pyStrip req.base_name ≠ "")
    (hp : req.parsed = Except.ok d) (hqs : d.quizzes.getD [] = qs)
    (hbe : buildEntries x m (pyStrip req.base_name) 1 qs =
      Except.ok entries) :
    generate_xmls req (Except.ok (x, m)) =
      Response.file entries (pyStrip req.base_name ++ "_xmls.zip")
        "application/zip" ∧
    entries.length = qs.length ∧
    ∀ i (hiq : i < qs.length) (hie : i < entries.length),
      (entries.get ⟨i, hie⟩).1 =
        pyStrip req.base_name ++ "_" ++ toString (i + 1) ++ ".xml" ∧
      fill x m (qs.get ⟨i, hiq⟩) = Except.ok (entries.get ⟨i, hie⟩).2 ∧
      ∃ title qlist qc idv,
        (qs.get ⟨i, hiq⟩).TITLE = some title ∧
        (qs.get ⟨i, hiq⟩).QUESTIONS = some qlist ∧
        (qs.get ⟨i, hiq⟩).id = some idv ∧
        fillQuestions (pyStrReplace x "{{TITLE}}" title) 1 qlist =
          Except.ok qc ∧
        (entries.get ⟨i, hie⟩).2 =
          qc ++ pyStrReplace m "{{ID}}" (pyStr idv) := by
  obtain ⟨hlen, hspec⟩ := buildEntries_spec qs 1 entries hbe
  refine ⟨?_, hlen, ?_⟩
  · rw [generate_xmls_run hq hb hp, hqs, hbe]
  · intro i hiq hie
    obtain ⟨hn, hf⟩ := hspec i hiq hie
    have hname : (entries.get ⟨i, hie⟩).1 =
        pyStrip req.base_name ++ "_" ++ toString (i + 1) ++ ".xml" := by
      rw [hn, show 1 + i = i + 1 from by omega]
    obtain ⟨title, qlist, qc, idv, h1, h2, h3, h4, h5⟩ := fill_ok_decomp hf
    exact ⟨hname, hf, title, qlist, qc, idv, h1, h2, h3, h4, h5⟩

theorem archiveLayout_witness :
    generate_xmls
        ⟨true, "math",
          Except.ok ⟨some [⟨some (JsonVal.jnum 1), some "T", some []⟩]⟩⟩
        (Except.ok ("{{TITLE}}", "{{ID}}")) =
      Response.file [("math_1.xml", "T1")]
        (pyStrip "math" ++ "_xmls.zip") "application/zip" :=
  (archiveLayout
    ⟨true, "math",
      Except.ok ⟨some [⟨some (JsonVal.jnum 1), some "T", some []⟩]⟩⟩
    "{{TITLE}}" "{{ID}}"
    ⟨some [⟨some (JsonVal.jnum 1), some "T", some []⟩]⟩
    [⟨some (JsonVal.jnum 1), some "T", some []⟩]
    [("math_1.xml", "T1")]
    rfl (by decide) rfl rfl rfl).1

/-! ### C3 and C7: recursion behaviour of the substitution -/

theorem data_eq_nil_iff (s : String) : s.data = [] ↔ s = "" := by
  cases s with
  | mk d =>
    constructor
    · intro h; subst h; rfl
    · intro h; exact congrArg String.data h

theorem mk_data (s : String) : String.mk s.data = s := by
  cases s; rfl

theorem pyReplace_self {pat rep : List Char} (h : pat ≠ []) :
    pyReplace pat pat rep = rep := by
  cases pat with
  | nil => exact absurd rfl h
  | cons c rest =>
    rw [pyReplace_cons_pos rep h List.prefix_rfl, List.drop_length,
      pyReplace_nil, List.append_nil]

/-- Within one pass, text just inserted is never rescanned: replacing a
string that is exactly the pattern yields the replacement verbatim, even
when the replacement contains the pattern. -/
theorem pyStrReplace_self {pat rep : String} (h : pat ≠ "") :
    pyStrReplace pat pat rep = rep := by
  unfold pyStrReplace
  rw [pyReplace_self (fun h0 => h ((data_eq_nil_iff pat).mp h0)), mk_data]

/-- C3, counterexample: a `TITLE` value containing `{{QUESTION_1}}` is
substituted into the working copy and then rewritten by the later
question pass — the placeholder-like text does not appear verbatim in the
output. -/
theorem nonRecursiveCex :
    fill "{{TITLE}}" "" ⟨some (JsonVal.jstr "1"), some "{{QUESTION_1}}",
        some [⟨some "Q", some [], some 0⟩]⟩ = Except.ok "Q" ∧
    ¬ occursIn "{{QUESTION_1}}" "Q" := by
  constructor
  · rfl
  · decide

/-- C3, amended: each individual replacement pass is non-recursive — the
value inserted by a pass is not rescanned by that same pass (replacing the
pattern itself yields the replacement verbatim, even when the replacement
contains the pattern) — but values inserted by earlier passes are scanned
by later passes, e.g. a TITLE equal to `{{QUESTION_1}}` is rewritten by
the question pass. -/
theorem singlePassNonRecursive :
    (∀ pat rep : String, pat ≠ "" → pyStrReplace pat pat rep = rep) ∧
    fill "{{TITLE}}" "" ⟨some (JsonVal.jstr "1"), some "{{QUESTION_1}}",
        some [⟨some "Q", some [], some 0⟩]⟩ = Except.ok "Q" := by
  exact ⟨fun pat rep h => pyStrReplace_self h, rfl⟩

theorem singlePassNonRecursive_witness :
    pyStrReplace "{{TITLE}}" "{{TITLE}}" "x{{TITLE}}y" = "x{{TITLE}}y" :=
  singlePassNonRecursive.1 "{{TITLE}}" "x{{TITLE}}y" (by decide)

/-- C7, counterexample: with the plain, brace-free title `"TITLE"` and the
template `{{{{TITLE}}}}`, the single replacement pass leaves a literal
occurrence of `{{TITLE}}` in the output. -/
theorem titleRoundTripCex :
    pyStrReplace "{{{{TITLE}}}}" "{{TITLE}}" "TITLE" = "{{TITLE}}" ∧
    occursIn "{{TITLE}}" (pyStrReplace "{{{{TITLE}}}}" "{{TITLE}}" "TITLE") ∧
    '{' ∉ "TITLE".data ∧ '}' ∉ "TITLE".data := by
  refine ⟨by decide, by decide, by decide, by decide⟩

/-- C7, amended: after the title pass no occurrence of `{{TITLE}}`
remains, provided the title is nonempty, contains no brace character, and
does not itself occur inside the literal `{{TITLE}}` (each of which the
counterexample shows to be necessary in general). -/
theorem titleRoundTrip (tpl title : String) (h0 : title ≠ "")
    (h1 : '{' ∉ title.data) (h2 : '}' ∉ title.data)
    (h3 : ¬ title.data <:+: "{{TITLE}}".data) :
    ¬ occursIn "{{TITLE}}" (pyStrReplace tpl "{{TITLE}}" title) := by
  have htok : "{{TITLE}}".data = tokL "TITLE".data := rfl
  show ¬ "{{TITLE}}".data <:+: (pyStrReplace tpl "{{TITLE}}" title).data
  rw [htok] at h3 ⊢
  exact noRemainTok h1 h2 h3 tpl.data.length tpl.data (Nat.le_refl _)

theorem titleRoundTrip_witness :
    ¬ occursIn "{{TITLE}}"
      (pyStrReplace "<q>{{TITLE}}</q>" "{{TITLE}}" "My Quiz") :=
  titleRoundTrip "<q>{{TITLE}}</q>" "My Quiz" (by decide) (by decide)
    (by decide) (by decide)

/-! ### C1: marking the correct option -/

/-- The value substituted for `{{Option_<qnum><i>}}` by `markRight`. -/
def correctValue (k : Int) (i : Nat) : String :=
  if ((i : Int) - 1) = k then "true" else "false"

/-- The brace-free body of an Option placeholder. -/
def optBody (q i : Nat) : List Char :=
  "Option_".data ++ (Nat.repr q).data ++ (Nat.repr i).data

theorem toString_nat (n : Nat) : toString n = Nat.repr n := rfl

theorem strExt {a b : String} (h : a.data = b.data) : a = b := by
  cases a; cases b; cases h; rfl

theorem optPh_data (q i : Nat) :
    (optionPlaceholder q i).data = tokL (optBody q i) := by
  unfold optionPlaceholder optBody
  rw [toString_nat, toString_nat]
  simp only [String.data_append]
  rw [tok_cons]
  simp [List.cons_append, List.append_assoc]

theorem bfree_append {l₁ l₂ : List Char} (h₁ : BFree l₁) (h₂ : BFree l₂) :
    BFree (l₁ ++ l₂) :=
  ⟨fun h => (List.mem_append.mp h).elim (fun hh => h₁.1 hh) (fun hh => h₂.1 hh),
   fun h => (List.mem_append.mp h).elim (fun hh => h₁.2 hh) (fun hh => h₂.2 hh)⟩

theorem optBody_bfree (q i : Nat) : BFree (optBody q i) :=
  bfree_append (bfree_append ⟨by decide, by decide⟩ (reprBFree q))
    (reprBFree i)

theorem tokMemCases {c : Char} {b : List Char} (h : c ∈ tokL b) :
    c = '{' ∨ c = '}' ∨ c ∈ b := by
  simp only [tokL, List.mem_cons, List.mem_append, List.mem_singleton] at h
  tauto

theorem optBodyMem {c : Char} {q i : Nat} (h : c ∈ optBody q i) :
    c ∈ "Option_".data ∨ c.isDigit = true := by
  unfold optBody at h
  rcases List.mem_append.mp h with h₁ | h₂
  · rcases List.mem_append.mp h₁ with hA | hB
    · exact Or.inl hA
    · exact Or.inr (repr_data_digits q c hB)
  · exact Or.inr (repr_data_digits i c h₂)

theorem charNotInOptTok {c : Char} (hc1 : c ≠ '{') (hc2 : c ≠ '}')
    (hc3 : c ∉ "Option_".data) (hc4 : c.isDigit = false) (q i : Nat) :
    c ∉ tokL (optBody q i) := by
  intro h
  rcases tokMemCases h with rfl | rfl | h'
  · exact hc1 rfl
  · exact hc2 rfl
  · rcases optBodyMem h' with hA | hB
    · exact hc3 hA
    · rw [hB] at hc4; exact Bool.noConfusion hc4

theorem cvalue_cases (k : Int) (i : Nat) :
    correctValue k i = "true" ∨ correctValue k i = "false" := by
  unfold correctValue
  by_cases h : ((i : Int) - 1) = k
  · exact Or.inl (if_pos h)
  · exact Or.inr (if_neg h)

theorem tfRep_brace {r : String} (hr : r = "true" ∨ r = "false") :
    '{' ∉ r.data ∧ '}' ∉ r.data := by
  rcases hr with rfl | rfl <;> exact ⟨by decide, by decide⟩

theorem tfRep_not_inf {r : String} (hr : r = "true" ∨ r = "false")
    (q i : Nat) : ¬ r.data <:+: tokL (optBody q i) := by
  intro h
  rcases hr with rfl | rfl
  · exact charNotInOptTok (by decide) (by decide) (by decide) (by decide) q i
      (h.subset (show 'r' ∈ "true".data by decide))
  · exact charNotInOptTok (by decide) (by decide) (by decide) (by decide) q i
      (h.subset (show 'f' ∈ "false".data by decide))

/-- One `markRight` pass removes every occurrence of its own
placeholder. -/
theorem noOptionOwnPass (q i : Nat) (k : Int) (s : String) :
    ¬ occursIn (optionPlaceholder q i)
      (pyStrReplace s (optionPlaceholder q i) (correctValue k i)) := by
  have hr := cvalue_cases k i
  have hb := tfRep_brace hr
  have hinf := tfRep_not_inf hr q i
  show ¬ (optionPlaceholder q i).data <:+:
    replChars (optionPlaceholder q i).data (correctValue k i).data
      s.data.length s.data
  rw [optPh_data q i]
  exact noRemainTok hb.1 hb.2 hinf s.data.length s.data (Nat.le_refl _)

/-- Later `markRight` passes cannot re-create an Option placeholder that
is already gone. -/
theorem noOptionAfterPass (q i : Nat) (k : Int) (s : String) (j : Nat)
    (h : ¬ occursIn (optionPlaceholder q i) s) :
    ¬ occursIn (optionPlaceholder q i)
      (pyStrReplace s (optionPlaceholder q j) (correctValue k j)) := by
  have hr := cvalue_cases k j
  have hb := tfRep_brace hr
  have hinf := tfRep_not_inf hr q i
  have hpatne : (optionPlaceholder q j).data ≠ [] := by
    rw [optPh_data]; exact tok_ne _
  show ¬ (optionPlaceholder q i).data <:+:
    replChars (optionPlaceholder q j).data (correctValue k j).data
      s.data.length s.data
  rw [optPh_data q i]
  apply noCreateTok hpatne hb.1 hb.2 hinf s.data.length s.data (Nat.le_refl _)
  rw [← optPh_data q i]
  exact h

theorem markRight_no_option (s : String) (q : Nat) (k : Int) :
    ∀ i : Nat, 1 ≤ i → i ≤ 4 →
      ¬ occursIn (optionPlaceholder q i) (markRight s q k) := by
  intro i h1 h4
  have hu : markRight s q k =
      pyStrReplace (pyStrReplace (pyStrReplace (pyStrReplace s
        (optionPlaceholder q 1) (correctValue k 1))
        (optionPlaceholder q 2) (correctValue k 2))
        (optionPlaceholder q 3) (correctValue k 3))
        (optionPlaceholder q 4) (correctValue k 4) := rfl
  rw [hu]
  interval_cases i
  · apply noOptionAfterPass q 1 k _ 4
    apply noOptionAfterPass q 1 k _ 3
    apply noOptionAfterPass q 1 k _ 2
    exact noOptionOwnPass q 1 k s
  · apply noOptionAfterPass q 2 k _ 4
    apply noOptionAfterPass q 2 k _ 3
    exact noOptionOwnPass q 2 k _
  · apply noOptionAfterPass q 3 k _ 4
    exact noOptionOwnPass q 3 k _
  · exact noOptionOwnPass q 4 k _

/-- C1: for `0 ≤ CORRECT = k ≤ 3` the four Option placeholders of the
question are substituted with `"true"` exactly at 1-based position `k+1`
and `"false"` elsewhere; after `markRight` (and hence after a successful
`fillQuestion`, regardless of how many answers exist) none of the four
placeholders remains. -/
theorem optionMarking (s : String) (q : Nat) (k : Int)
    (h0 : 0 ≤ k) (h3 : k ≤ 3) :
    markRight s q k =
      pyStrReplace (pyStrReplace (pyStrReplace (pyStrReplace s
        (optionPlaceholder q 1) (correctValue k 1))
        (optionPlaceholder q 2) (correctValue k 2))
        (optionPlaceholder q 3) (correctValue k 3))
        (optionPlaceholder q 4) (correctValue k 4) ∧
    (∀ i : Nat, 1 ≤ i → i ≤ 4 →
      (correctValue k i = "true" ↔ (i : Int) = k + 1)) ∧
    1 ≤ k + 1 ∧ k + 1 ≤ 4 ∧
    (∀ i : Nat, 1 ≤ i → i ≤ 4 →
      ¬ occursIn (optionPlaceholder q i) (markRight s q k)) ∧
    (∀ (content : String) (qq : Question) (out : String),
      qq.CORRECT = some k → fillQuestion content q qq = Except.ok out →
      ∀ i : Nat, 1 ≤ i → i ≤ 4 →
        ¬ occursIn (optionPlaceholder q i) out) := by
  refine ⟨rfl, ?_, by omega, by omega, markRight_no_option s q k, ?_⟩
  · intro i h1 h4
    unfold correctValue
    by_cases h : ((i : Int) - 1) = k
    · rw [if_pos h]
      exact ⟨fun _ => by omega, fun _ => rfl⟩
    · rw [if_neg h]
      exact ⟨fun hh => absurd hh (by decide), fun hh => absurd rfl
        (show ¬ (1 : Int) = 1 from fun _ => h (by omega))⟩
  · intro content qq out hC hf i h1 h4
    unfold fillQuestion at hf
    cases hQ : qq.QUESTION with
    | none => rw [hQ] at hf; exact Except.noConfusion hf
    | some qt =>
      rw [hQ] at hf
      cases hA : qq.ANSWERS with
      | none => rw [hA] at hf; exact Except.noConfusion hf
      | some ans =>
        rw [hA] at hf
        rw [hC] at hf
        dsimp only at hf
        injection hf with hout
        rw [← hout]
        exact markRight_no_option _ q k i h1 h4

theorem optionMarking_witness :
    ¬ occursIn (optionPlaceholder 1 2)
      (markRight "{{Option_11}}{{Option_12}}{{Option_13}}{{Option_14}}"
        1 1) :=
  ((optionMarking "{{Option_11}}{{Option_12}}{{Option_13}}{{Option_14}}"
    1 1 (by decide) (by decide)).2.2.2.2.1) 2 (by decide) (by decide)

/-! ### C4: answer placeholders -/

/-- The brace-free body of an ANSWER placeholder. -/
def ansBody (q a : Nat) : List Char :=
  "ANSWER_".data ++ (Nat.repr q).data ++ [Char.ofNat (64 + a)]

/-- The brace-free body of a QUESTION placeholder. -/
def qBody (q : Nat) : List Char :=
  "QUESTION_".data ++ (Nat.repr q).data

theorem ansPh_data (q a : Nat) :
    (answerPlaceholder q a).data = tokL (ansBody q a) := by
  unfold answerPlaceholder ansBody
  rw [toString_nat]
  simp only [String.data_append]
  rw [tok_cons, show (String.singleton (Char.ofNat (64 + a))).data =
    [Char.ofNat (64 + a)] from rfl]
  simp [List.cons_append, List.append_assoc]

theorem qPh_data (q : Nat) :
    (questionPlaceholder q).data = tokL (qBody q) := by
  unfold questionPlaceholder qBody
  rw [toString_nat]
  simp only [String.data_append]
  rw [tok_cons]
  simp [List.cons_append, List.append_assoc]

theorem titlePh_data : "{{TITLE}}".data = tokL "TITLE".data := rfl

theorem ansBody_bfree (q a : Nat) (h1 : 1 ≤ a) (h4 : a ≤ 4) :
    BFree (ansBody q a) := by
  refine bfree_append (bfree_append ⟨by decide, by decide⟩ (reprBFree q)) ?_
  interval_cases a <;> exact ⟨by decide, by decide⟩

theorem qBody_bfree (q : Nat) : BFree (qBody q) :=
  bfree_append ⟨by decide, by decide⟩ (reprBFree q)

theorem titleNeAns (q a : Nat) : "TITLE".data ≠ ansBody q a := by
  intro h
  have h' := congrArg List.head? h
  have hA : (ansBody q a).head? = some 'A' := rfl
  rw [hA] at h'
  exact absurd h' (by decide)

theorem qBodyNeAns (n q a : Nat) : qBody n ≠ ansBody q a := by
  intro h
  have h' := congrArg List.head? h
  have hQ : (qBody n).head? = some 'Q' := rfl
  have hA : (ansBody q a).head? = some 'A' := rfl
  rw [hQ, hA] at h'
  exact absurd h' (by decide)

theorem optBodyNeAns (n i q a : Nat) : optBody n i ≠ ansBody q a := by
  intro h
  have h' := congrArg List.head? h
  have hO : (optBody n i).head? = some 'O' := rfl
  have hA : (ansBody q a).head? = some 'A' := rfl
  rw [hO, hA] at h'
  exact absurd h' (by decide)

theorem ansBodyInj {q₁ a₁ q₂ a₂ : Nat} (h₁ : 1 ≤ a₁) (h₂ : a₁ ≤ 4)
    (h₃ : 1 ≤ a₂) (h₄ : a₂ ≤ 4) (h : ansBody q₁ a₁ = ansBody q₂ a₂) :
    q₁ = q₂ ∧ a₁ = a₂ := by
  unfold ansBody at h
  obtain ⟨h5, h6⟩ := appendSingletonInj h
  have hd := List.append_cancel_left h5
  have hq : q₁ = q₂ := reprInj (strExt hd)
  have ha : a₁ = a₂ := by
    interval_cases a₁ <;> interval_cases a₂ <;>
      first | rfl | exact absurd h6 (by decide)
  exact ⟨hq, ha⟩

/-- A single replacement pass whose pattern is a token with a different
brace-free body preserves occurrences of a token. -/
theorem preservePass {pat t : String} (rep : String) {bp bt : List Char}
    (hp : pat.data = tokL bp) (ht : t.data = tokL bt)
    (h₁ : BFree bp) (h₂ : BFree bt) (hne : bp ≠ bt)
    {s : String} (h : occursIn t s) : occursIn t (pyStrReplace s pat rep) := by
  unfold occursIn at h ⊢
  rw [ht] at h ⊢
  show tokL bt <:+: replChars pat.data rep.data s.data.length s.data
  rw [hp]
  exact preserveTok rep.data h₁ h₂ hne s.data.length s.data (Nat.le_refl _) h

theorem markRight_preserve {qn an : Nat} (n : Nat) (s : String) (k : Int)
    (ha1 : 1 ≤ an) (ha4 : an ≤ 4)
    (h : occursIn (answerPlaceholder qn an) s) :
    occursIn (answerPlaceholder qn an) (markRight s n k) := by
  have hb := ansBody_bfree qn an ha1 ha4
  have h1 := preservePass (correctValue k 1) (optPh_data n 1)
    (ansPh_data qn an) (optBody_bfree n 1) hb (optBodyNeAns n 1 qn an) h
  have h2 := preservePass (correctValue k 2) (optPh_data n 2)
    (ansPh_data qn an) (optBody_bfree n 2) hb (optBodyNeAns n 2 qn an) h1
  have h3 := preservePass (correctValue k 3) (optPh_data n 3)
    (ansPh_data qn an) (optBody_bfree n 3) hb (optBodyNeAns n 3 qn an) h2
  exact preservePass (correctValue k 4) (optPh_data n 4)
    (ansPh_data qn an) (optBody_bfree n 4) hb (optBodyNeAns n 4 qn an) h3

theorem fillAnswers_preserve {qn an : Nat} (n : Nat) (ha1 : 1 ≤ an)
    (ha4 : an ≤ 4) :
    ∀ (ans : List String) (content : String) (a₀ : Nat),
      (∀ j, a₀ ≤ j → j < a₀ + ans.length →
        BFree (ansBody n j) ∧ ansBody n j ≠ ansBody qn an) →
      occursIn (answerPlaceholder qn an) content →
      occursIn (answerPlaceholder qn an) (fillAnswers n content a₀ ans) := by
  intro ans
  induction ans with
  | nil => intro content a₀ _ h; exact h
  | cons x rest ih =>
    intro content a₀ hcond h
    have hc := hcond a₀ (Nat.le_refl _) (by simp)
    have hstep : occursIn (answerPlaceholder qn an)
        (pyStrReplace content (answerPlaceholder n a₀) x) :=
      preservePass x (ansPh_data n a₀) (ansPh_data qn an) hc.1
        (ansBody_bfree qn an ha1 ha4) hc.2 h
    exact ih (pyStrReplace content (answerPlaceholder n a₀) x) (a₀ + 1)
      (fun j hj1 hj2 => hcond j (by omega) (by simp only [List.length_cons]; omega)) hstep

theorem fillQuestion_preserve {qn an : Nat} (ha1 : 1 ≤ an) (ha4 : an ≤ 4)
    {n : Nat} {content out : String} {qq : Question}
    (hans : ∀ l, qq.ANSWERS = some l → l.length ≤ 4 ∧
      ∀ j, 1 ≤ j → j ≤ l.length → ansBody n j ≠ ansBody qn an)
    (hf : fillQuestion content n qq = Except.ok out)
    (h : occursIn (answerPlaceholder qn an) content) :
    occursIn (answerPlaceholder qn an) out := by
  unfold fillQuestion at hf
  cases hQ : qq.QUESTION with
  | none => rw [hQ] at hf; exact Except.noConfusion hf
  | some qt =>
    rw [hQ] at hf
    cases hA : qq.ANSWERS with
    | none => rw [hA] at hf; exact Except.noConfusion hf
    | some ans =>
      rw [hA] at hf
      cases hC : qq.CORRECT with
      | none => rw [hC] at hf; dsimp only at hf; exact Except.noConfusion hf
      | some k =>
        rw [hC] at hf
        dsimp only at hf
        injection hf with hout
        subst hout
        obtain ⟨hlen4, hansne⟩ := hans ans hA
        have hb := ansBody_bfree qn an ha1 ha4
        have h1 : occursIn (answerPlaceholder qn an)
            (pyStrReplace content (questionPlaceholder n) qt) :=
          preservePass qt (qPh_data n) (ansPh_data qn an) (qBody_bfree n) hb
            (qBodyNeAns n qn an) h
        have h2 := fillAnswers_preserve n ha1 ha4 ans _ 1
          (fun j hj1 hj2 => ⟨ansBody_bfree n j hj1 (by omega),
            hansne j hj1 (by omega)⟩) h1
        exact markRight_preserve n _ k ha1 ha4 h2

theorem fillQuestions_preserve {qn an : Nat} (ha1 : 1 ≤ an) (ha4 : an ≤ 4) :
    ∀ (qs : List Question) (content out : String) (n₀ : Nat),
      (∀ i (hi : i < qs.length) l, (qs.get ⟨i, hi⟩).ANSWERS = some l →
        l.length ≤ 4 ∧ ∀ j, 1 ≤ j → j ≤ l.length →
          ansBody (n₀ + i) j ≠ ansBody qn an) →
      fillQuestions content n₀ qs = Except.ok out →
      occursIn (answerPlaceholder qn an) content →
      occursIn (answerPlaceholder qn an) out := by
  intro qs
  induction qs with
  | nil =>
    intro content out n₀ _ hf h
    unfold fillQuestions at hf
    injection hf with h1
    exact h1 ▸ h
  | cons q0 rest ih =>
    intro content out n₀ hcond hf h
    unfold fillQuestions at hf
    cases hfq : fillQuestion content n₀ q0 with
    | error k => rw [hfq] at hf; exact Except.noConfusion hf
    | ok c =>
      rw [hfq] at hf
      have h1 : occursIn (answerPlaceholder qn an) c :=
        fillQuestion_preserve ha1 ha4
          (fun l hl => hcond 0 (by simp) l hl) hfq h
      refine ih c out (n₀ + 1) ?_ hf h1
      intro i hi l hl
      have hh := hcond (i + 1) (by simp only [List.length_cons]; omega) l hl
      rwa [show n₀ + (i + 1) = n₀ + 1 + i from by omega] at hh

/-- C4: placeholders of present answers use the letter `chr(64 + anum)`
and are consumed in order by the answer fold, while the placeholder of an
absent answer slot (`anum` beyond the question's ANSWERS, up to slot 4)
survives the whole Template Filler run literally. -/
theorem answerPlaceholders (x m : String) (qz : Quiz) (out : String)
    (qs : List Question) (qn an : Nat) (ansl : List String)
    (hqs : qz.QUESTIONS = some qs)
    (hbound : ∀ q' ∈ qs, ∀ l, q'.ANSWERS = some l → l.length ≤ 4)
    (hq1 : 1 ≤ qn) (hqlen : qn ≤ qs.length)
    (hans : (qs.get ⟨qn - 1, by omega⟩).ANSWERS = some ansl)
    (ha1 : 1 ≤ an) (ha4 : an ≤ 4) (habsent : ansl.length < an)
    (hf : fill x m qz = Except.ok out)
    (hocc : occursIn (answerPlaceholder qn an) x) :
    occursIn (answerPlaceholder qn an) out ∧
    (∀ (content : String) (a₀ : Nat) (txt : String) (rest : List String),
      fillAnswers qn content a₀ (txt :: rest) =
        fillAnswers qn (pyStrReplace content (answerPlaceholder qn a₀) txt)
          (a₀ + 1) rest) ∧
    answerPlaceholder qn an =
      "\x7b\x7bANSWER_" ++ toString qn ++
        String.singleton (Char.ofNat (64 + an)) ++ "\x7d\x7d" := by
  refine ⟨?_, fun _ _ _ _ => rfl, rfl⟩
  obtain ⟨title, qs', qc, idv, hT, hQ, hid, hfq, hout⟩ := fill_ok_decomp hf
  rw [hqs] at hQ
  injection hQ with h'
  subst h'
  have hstep : occursIn (answerPlaceholder qn an)
      (pyStrReplace x "{{TITLE}}" title) :=
    preservePass title titlePh_data (ansPh_data qn an) ⟨by decide, by decide⟩
      (ansBody_bfree qn an ha1 ha4) (titleNeAns qn an) hocc
  have hqc : occursIn (answerPlaceholder qn an) qc := by
    refine fillQuestions_preserve ha1 ha4 qs _ qc 1 ?_ hfq hstep
    intro i hi l hl
    have hl4 : l.length ≤ 4 := hbound _ (List.get_mem qs i hi) l hl
    refine ⟨hl4, ?_⟩
    intro j hj1 hj2 hcontra
    obtain ⟨hqeq, haeq⟩ := ansBodyInj hj1 (by omega) ha1 ha4 hcontra
    have hi' : i = qn - 1 := by omega
    subst haeq
    subst hi'
    have hll : some ansl = some l := by
      rw [← hans]
      exact hl
    injection hll with hll'
    rw [← hll'] at hj2
    omega
  rw [hout]
  unfold occursIn at hqc ⊢
  rw [String.data_append]
  exact hqc.trans (List.prefix_append _ _).isInfix

theorem answerPlaceholders_witness :
    occursIn (answerPlaceholder 1 4) "{{ANSWER_1D}}a" :=
  (answerPlaceholders "{{ANSWER_1D}}{{ANSWER_1A}}" ""
    ⟨some (JsonVal.jnum 2), some "T", some [⟨some "Q", some ["a"], some 0⟩]⟩
    "{{ANSWER_1D}}a" [⟨some "Q", some ["a"], some 0⟩] 1 4 ["a"]
    rfl
    (by
      intro q' hq' l hl
      rcases List.mem_singleton.mp hq' with rfl
      injection hl with h'
      rw [← h']
      decide)
    (by decide) (by decide) rfl (by decide) (by decide) (by decide)
    rfl (by decide)).1

end XMLQuiz
